import Mathlib

/-!
Verification development for the marco_cstree network-intent conflict
analyzer.  The Python source is shallowly embedded:

* `detectConstraints` mirrors the constraint generation of
  `IntentProcessor._detection` (src/intent_processor.py): one positive
  symbolic weight per directed edge, a strict-inequality constraint per
  `path_preference` intent, equality constraints per `ECMP` intent, and
  positivity-only bookkeeping for `simple` intents.
* Satisfiability of the generated integer constraints (decided by Z3 in the
  source) is the proposition `DetectionSat` (existence of an integer weight
  assignment making every generated constraint true).
* The MiniSat-backed map solver (src/mapsolvers.py) is embedded at the
  clause level; the SAT backend itself (`minisolvers`, not part of src/)
  is modelled from the spec as returning models of all added clauses,
  maximal in high-bias mode.
* The MARCO driver (src/intent_marco_polo.py) is embedded as a transition
  relation `Run` over driver states, parameterised by the oracle verdicts.
-/

set_option maxRecDepth 4000

namespace MarcoCstree

/-! ## Path-cost algebra and constraints

The source represents each directed edge `(u, v)` by the string key
`f'{u}_{v}'` (`var_dict` keys) and a path cost as the sum of the weight
variables of its edges.  Constraints are `x > 0`, `lhs < rhs`, `lhs == rhs`
over such sums. -/

/-- Integer weight assignment over edge keys (the Z3 model). -/
abbrev Weights := String → Int

/-- The edge key built by `IntentProcessor`: `f'{u}_{v}'`.  Node names
containing an underscore collide, exactly as in the source. -/
def edgeKey (u v : String) : String := u ++ "_" ++ v

/-- The edge keys of a path, as built by `_get_path_expression`:
nothing for paths shorter than two nodes, otherwise one key per
consecutive node pair. -/
def pathKeys : List String → List String
  | u :: v :: rest => edgeKey u v :: pathKeys (v :: rest)
  | _ => []

/-- A constraint produced by `_detection`: a positivity constraint on one
edge variable, or a strict inequality / equality between two path sums. -/
inductive Constr where
  | pos : String → Constr
  | lt : List String → List String → Constr
  | eq : List String → List String → Constr
deriving DecidableEq

/-- Cost of a path expression (sum of the weights of its edge keys). -/
def pathCost (w : Weights) (ks : List String) : Int := (ks.map w).sum

/-- Truth of one constraint under a weight assignment. -/
def evalConstr (w : Weights) : Constr → Bool
  | .pos k => decide (0 < w k)
  | .lt l r => decide (pathCost w l < pathCost w r)
  | .eq l r => decide (pathCost w l = pathCost w r)

/-! ## Intent records and constraint generation -/

/-- Network intent record, mirroring the positional tuples
`(protocol, kind, src, dst, paths...)` of the source intent data.
For `path_preference`, `paths = [primary, secondary]` (fields 4 and 5);
for `simple`, `paths` is the declared path list after the source's
single-path normalisation; for `ECMP`, `paths` is field 4.  `src`/`dst`
are stored but, as in `_detection`, never used for constraint
generation. -/
structure Intent where
  protocol : String
  kind : String
  src : String
  dst : String
  paths : List (List String)
deriving DecidableEq

/-- Generation state: `seen` is the key set of `var_dict`, `cons` the
accumulated global constraint list. -/
structure GenSt where
  seen : List String
  cons : List Constr
deriving DecidableEq

/-- Register one edge key: a fresh key gets a variable and a positivity
constraint, a known key is reused (`_get_path_expression`). -/
def addPathKey (st : GenSt) (k : String) : GenSt :=
  if k ∈ st.seen then st else ⟨st.seen ++ [k], st.cons ++ [Constr.pos k]⟩

/-- Register every edge key of one path. -/
def addPath (st : GenSt) (p : List String) : GenSt :=
  (pathKeys p).foldl addPathKey st

/-- Append a declared-cost constraint. -/
def pushCons (st : GenSt) (c : Constr) : GenSt := ⟨st.seen, st.cons ++ [c]⟩

/-- Constraint generation for one intent, following the dispatch in
`_detection` / `_process_path_preference_intent` / `_process_simple_intent`
/ `_process_ecmp_intent`.  A `simple` intent contributes only positivity
constraints for its path edges; an unknown kind contributes nothing. -/
def processIntent (st : GenSt) (it : Intent) : GenSt :=
  if it.kind = "path_preference" then
    match it.paths with
    | [p1, p2] =>
        pushCons (addPath (addPath st p1) p2)
          (Constr.lt (pathKeys p1) (pathKeys p2))
    | _ => st
  else if it.kind = "simple" then
    it.paths.foldl addPath st
  else if it.kind = "ECMP" then
    match it.paths with
    | [] => st
    | p0 :: rest =>
        let st1 := ((p0 :: rest).foldl addPath st)
        rest.foldl (fun s pj => pushCons s (Constr.eq (pathKeys p0) (pathKeys pj))) st1
  else st

/-- The directed edges of the topology: each undirected link yields both
directions, deduplicated in insertion order (`nx.DiGraph.add_edge`). -/
def topoEdges (links : List (String × String)) : List (String × String) :=
  links.foldl
    (fun acc l =>
      let acc1 := if (l.1, l.2) ∈ acc then acc else acc ++ [(l.1, l.2)]
      if (l.2, l.1) ∈ acc1 then acc1 else acc1 ++ [(l.2, l.1)])
    []

/-- All node names mentioned by the topology links. -/
def topoNodes (links : List (String × String)) : List String :=
  links.foldl
    (fun acc l =>
      let acc1 := if l.1 ∈ acc then acc else acc ++ [l.1]
      if l.2 ∈ acc1 then acc1 else acc1 ++ [l.2])
    []

/-- Initial generation state of `_detection`: every directed topology edge
owns a variable with a positivity constraint. -/
def initGenSt (links : List (String × String)) : GenSt :=
  ⟨(topoEdges links).map (fun e => edgeKey e.1 e.2),
   (topoEdges links).map (fun e => Constr.pos (edgeKey e.1 e.2))⟩

/-- The full constraint list handed to the Z3 solver by `_detection` for a
given intent list. -/
def detectConstraints (links : List (String × String)) (intents : List Intent) :
    List Constr :=
  (intents.foldl processIntent (initGenSt links)).cons

/-- Z3 satisfiability of the generated constraint system: some integer
weight assignment satisfies every generated constraint.  (The constraints
are conjunctive linear integer arithmetic, on which Z3 is a decision
procedure, so this proposition is exactly the verdict computed by
`_detection`.) -/
def DetectionSat (links : List (String × String)) (intents : List Intent) : Prop :=
  ∃ w : Weights, (detectConstraints links intents).all (evalConstr w) = true

/-- The intents selected for a 1-based index set, in ascending index order
(`IntentProcessor.check` builds `selected_intents` from the index set;
indices outside `1..n` are skipped, mirroring `if idx in self.index_to_id`;
the iteration order does not affect the satisfiability verdict). -/
def selectIntents (intents : List Intent) (s : Finset ℕ) : List Intent :=
  (List.range intents.length).filterMap
    (fun j => if j + 1 ∈ s then intents[j]? else none)

/-- The oracle verdict of `IntentProcessor.check` on an index set: the
empty set is SAT unconditionally, otherwise the verdict of `_detection`
on the selected intents. -/
def oracleSat (links : List (String × String)) (intents : List Intent)
    (s : Finset ℕ) : Prop :=
  if s = ∅ then True else DetectionSat links (selectIntents intents s)

/-! ## Basic facts about constraint generation -/

theorem addPath_all_pos {st : GenSt} (p : List String)
    (h : ∀ c ∈ st.cons, ∃ k, c = Constr.pos k) :
    ∀ c ∈ (addPath st p).cons, ∃ k, c = Constr.pos k := by
  unfold addPath
  induction pathKeys p generalizing st with
  | nil => exact h
  | cons k ks ih =>
      apply ih
      intro c hc
      unfold addPathKey at hc
      by_cases hk : k ∈ st.seen
      · simp [hk] at hc; exact h c hc
      · simp [hk] at hc
        rcases hc with hc | hc
        · exact h c hc
        · exact ⟨k, hc⟩

theorem foldl_addPath_all_pos {st : GenSt} (ps : List (List String))
    (h : ∀ c ∈ st.cons, ∃ k, c = Constr.pos k) :
    ∀ c ∈ (ps.foldl addPath st).cons, ∃ k, c = Constr.pos k := by
  induction ps generalizing st with
  | nil => exact h
  | cons p ps ih => exact ih (addPath_all_pos p h)

theorem foldl_processIntent_all_pos {st : GenSt} (intents : List Intent)
    (hs : ∀ it ∈ intents, it.kind = "simple")
    (h : ∀ c ∈ st.cons, ∃ k, c = Constr.pos k) :
    ∀ c ∈ (intents.foldl processIntent st).cons, ∃ k, c = Constr.pos k := by
  induction intents generalizing st with
  | nil => exact h
  | cons it its ih =>
      have hkind : it.kind = "simple" := hs it (by simp)
      have hstep : ∀ c ∈ (processIntent st it).cons, ∃ k, c = Constr.pos k := by
        unfold processIntent
        rw [hkind]
        simp only [reduceIte]
        exact foldl_addPath_all_pos it.paths h
      exact ih (fun x hx => hs x (by simp [hx])) hstep

/-- For an intent list made of `simple` intents only, every generated
constraint is a strict-positivity constraint on one edge variable. -/
theorem detectConstraints_simple_all_pos
    (links : List (String × String)) (intents : List Intent)
    (hs : ∀ it ∈ intents, it.kind = "simple") :
    ∀ c ∈ detectConstraints links intents, ∃ k, c = Constr.pos k := by
  unfold detectConstraints
  refine foldl_processIntent_all_pos intents hs ?_
  intro c hc
  unfold initGenSt at hc
  simp at hc
  rcases hc with ⟨a, b, _, hc⟩
  exact ⟨edgeKey a b, hc.symm⟩

/-- Any constraint list consisting solely of positivity constraints is
satisfied by the all-ones assignment. -/
theorem all_pos_sat (cs : List Constr)
    (h : ∀ c ∈ cs, ∃ k, c = Constr.pos k) :
    cs.all (evalConstr (fun _ => (1 : Int))) = true := by
  rw [List.all_eq_true]
  intro c hc
  rcases h c hc with ⟨k, rfl⟩
  simp [evalConstr]

/-! ## Semantic characterisation of the generated constraints

`detectConstraints` threads a `seen`-set through the generation, adding a
positivity constraint only for fresh keys.  Semantically the system is
equivalent to: positivity of every topology edge, plus, per intent,
positivity of its path edges and its declared-cost constraints.  This
yields monotonicity of the oracle in the intent set. -/

/-- The edge keys registered while processing one intent. -/
def intentKeys (it : Intent) : List String :=
  if it.kind = "path_preference" then
    match it.paths with
    | [p1, p2] => pathKeys p1 ++ pathKeys p2
    | _ => []
  else if it.kind = "simple" then (it.paths.map pathKeys).flatten
  else if it.kind = "ECMP" then (it.paths.map pathKeys).flatten
  else []

/-- The declared-cost constraints of one intent. -/
def intentCons (it : Intent) : List Constr :=
  if it.kind = "path_preference" then
    match it.paths with
    | [p1, p2] => [Constr.lt (pathKeys p1) (pathKeys p2)]
    | _ => []
  else if it.kind = "ECMP" then
    match it.paths with
    | [] => []
    | p0 :: rest => rest.map (fun pj => Constr.eq (pathKeys p0) (pathKeys pj))
  else []

/-- Well-formed generation state: every registered key has its positivity
constraint in the accumulated constraints. -/
def GoodSt (st : GenSt) : Prop := ∀ k ∈ st.seen, Constr.pos k ∈ st.cons

theorem goodSt_init (links : List (String × String)) : GoodSt (initGenSt links) := by
  intro k hk
  unfold initGenSt at hk ⊢
  simp only [List.mem_map] at hk ⊢
  rcases hk with ⟨e, he, rfl⟩
  exact ⟨e, he, rfl⟩

theorem addPathKey_mem {st : GenSt} {c : Constr} (k : String)
    (h : c ∈ st.cons) : c ∈ (addPathKey st k).cons := by
  unfold addPathKey
  by_cases hk : k ∈ st.seen <;> simp [hk, h]

theorem goodSt_addPathKey {st : GenSt} (k : String) (h : GoodSt st) :
    GoodSt (addPathKey st k) := by
  intro x hx
  unfold addPathKey at hx ⊢
  by_cases hk : k ∈ st.seen
  · simp only [hk, if_true] at hx ⊢
    exact h x hx
  · simp only [hk, if_false, List.mem_append, List.mem_singleton] at hx ⊢
    rcases hx with hx | rfl
    · exact Or.inl (h x hx)
    · exact Or.inr rfl

theorem goodSt_addPath {st : GenSt} (p : List String) (h : GoodSt st) :
    GoodSt (addPath st p) := by
  unfold addPath
  induction pathKeys p generalizing st with
  | nil => exact h
  | cons k ks ih => exact ih (goodSt_addPathKey k h)

theorem goodSt_foldl_addPath {st : GenSt} (ps : List (List String)) (h : GoodSt st) :
    GoodSt (ps.foldl addPath st) := by
  induction ps generalizing st with
  | nil => exact h
  | cons p ps ih => exact ih (goodSt_addPath p h)

theorem goodSt_pushCons {st : GenSt} (c : Constr) (h : GoodSt st) :
    GoodSt (pushCons st c) := by
  intro x hx
  exact List.mem_append.mpr (Or.inl (h x hx))

theorem goodSt_foldl_pushCons {st : GenSt} {α : Type} (f : α → Constr)
    (xs : List α) (h : GoodSt st) :
    GoodSt (xs.foldl (fun s x => pushCons s (f x)) st) := by
  induction xs generalizing st with
  | nil => exact h
  | cons x xs ih => exact ih (goodSt_pushCons (f x) h)

theorem goodSt_processIntent {st : GenSt} (it : Intent) (h : GoodSt st) :
    GoodSt (processIntent st it) := by
  unfold processIntent
  by_cases h1 : it.kind = "path_preference"
  · simp only [h1, if_true]
    match it.paths with
    | [] => exact h
    | [p] => exact h
    | [p1, p2] => exact goodSt_pushCons _ (goodSt_addPath _ (goodSt_addPath _ h))
    | p1 :: p2 :: p3 :: ps => exact h
  · simp only [h1, if_false]
    by_cases h2 : it.kind = "simple"
    · simp only [h2, if_true]
      exact goodSt_foldl_addPath _ h
    · simp only [h2, if_false]
      by_cases h3 : it.kind = "ECMP"
      · simp only [h3, if_true]
        match it.paths with
        | [] => exact h
        | p0 :: rest =>
            exact goodSt_foldl_pushCons _ rest (goodSt_foldl_addPath _ h)
      · simp only [h3, if_false]; exact h

/-- Satisfying the constraints after `addPathKey` is satisfying the old
constraints plus positivity of the new key. -/
theorem addPathKey_all_iff {st : GenSt} {w : Weights} (k : String) (h : GoodSt st) :
    ((addPathKey st k).cons.all (evalConstr w) = true) ↔
      (st.cons.all (evalConstr w) = true ∧ 0 < w k) := by
  unfold addPathKey
  by_cases hk : k ∈ st.seen
  · simp only [hk, if_true]
    constructor
    · intro hall
      refine ⟨hall, ?_⟩
      have := (List.all_eq_true.mp hall) _ (h k hk)
      simpa [evalConstr] using this
    · exact fun hx => hx.1
  · simp only [hk, if_false]
    rw [List.all_append]
    simp [evalConstr]

theorem addPath_all_iff {st : GenSt} {w : Weights} (p : List String) (h : GoodSt st) :
    ((addPath st p).cons.all (evalConstr w) = true) ↔
      (st.cons.all (evalConstr w) = true ∧ ∀ k ∈ pathKeys p, 0 < w k) := by
  unfold addPath
  induction pathKeys p generalizing st with
  | nil => simp
  | cons k ks ih =>
      rw [List.foldl_cons, ih (goodSt_addPathKey k h), addPathKey_all_iff k h]
      constructor
      · rintro ⟨⟨h1, h2⟩, h3⟩
        exact ⟨h1, by intro x hx; rcases List.mem_cons.mp hx with rfl | hx
                      · exact h2
                      · exact h3 x hx⟩
      · rintro ⟨h1, h2⟩
        exact ⟨⟨h1, h2 k (by simp)⟩, fun x hx => h2 x (by simp [hx])⟩

theorem foldl_addPath_all_iff {st : GenSt} {w : Weights} (ps : List (List String))
    (h : GoodSt st) :
    ((ps.foldl addPath st).cons.all (evalConstr w) = true) ↔
      (st.cons.all (evalConstr w) = true ∧
        ∀ k ∈ (ps.map pathKeys).flatten, 0 < w k) := by
  induction ps generalizing st with
  | nil => simp
  | cons p ps ih =>
      rw [List.foldl_cons, ih (goodSt_addPath p h), addPath_all_iff p h]
      simp only [List.map_cons, List.flatten_cons, List.mem_append]
      constructor
      · rintro ⟨⟨h1, h2⟩, h3⟩
        exact ⟨h1, by rintro x (hx | hx); exacts [h2 x hx, h3 x hx]⟩
      · rintro ⟨h1, h2⟩
        exact ⟨⟨h1, fun x hx => h2 x (Or.inl hx)⟩, fun x hx => h2 x (Or.inr hx)⟩

theorem pushCons_all_iff {st : GenSt} {w : Weights} (c : Constr) :
    ((pushCons st c).cons.all (evalConstr w) = true) ↔
      (st.cons.all (evalConstr w) = true ∧ evalConstr w c = true) := by
  unfold pushCons
  rw [List.all_append]
  simp

theorem foldl_pushCons_all_iff {st : GenSt} {w : Weights} {α : Type}
    (f : α → Constr) (xs : List α) :
    ((xs.foldl (fun s x => pushCons s (f x)) st).cons.all (evalConstr w) = true) ↔
      (st.cons.all (evalConstr w) = true ∧ ∀ x ∈ xs, evalConstr w (f x) = true) := by
  induction xs generalizing st with
  | nil => simp
  | cons x xs ih =>
      rw [List.foldl_cons, ih, pushCons_all_iff]
      constructor
      · rintro ⟨⟨h1, h2⟩, h3⟩
        refine ⟨h1, fun y hy => ?_⟩
        rcases List.mem_cons.mp hy with rfl | hy
        · exact h2
        · exact h3 y hy
      · rintro ⟨h1, h2⟩
        exact ⟨⟨h1, h2 x (by simp)⟩, fun y hy => h2 y (by simp [hy])⟩

theorem processIntent_all_iff {st : GenSt} {w : Weights} (it : Intent)
    (h : GoodSt st) :
    ((processIntent st it).cons.all (evalConstr w) = true) ↔
      (st.cons.all (evalConstr w) = true ∧
        (∀ k ∈ intentKeys it, 0 < w k) ∧
        (intentCons it).all (evalConstr w) = true) := by
  unfold processIntent intentKeys intentCons
  by_cases h1 : it.kind = "path_preference"
  · simp only [h1, if_true]
    match it.paths with
    | [] => simp
    | [p] => simp
    | [p1, p2] =>
        rw [pushCons_all_iff, addPath_all_iff p2 (goodSt_addPath p1 h),
          addPath_all_iff p1 h]
        simp only [List.all_cons, List.all_nil, Bool.and_true, List.mem_append]
        constructor
        · rintro ⟨⟨⟨ha, hb⟩, hc⟩, hd⟩
          exact ⟨ha, by rintro x (hx | hx); exacts [hb x hx, hc x hx], hd⟩
        · rintro ⟨ha, hb, hc⟩
          exact ⟨⟨⟨ha, fun x hx => hb x (Or.inl hx)⟩,
            fun x hx => hb x (Or.inr hx)⟩, hc⟩
    | p1 :: p2 :: p3 :: ps => simp
  · simp only [h1, if_false]
    by_cases h2 : it.kind = "simple"
    · simp only [h2, if_true]
      rw [foldl_addPath_all_iff it.paths h]
      simp
    · simp only [h2, if_false]
      by_cases h3 : it.kind = "ECMP"
      · simp only [h3, if_true]
        match it.paths with
        | [] => simp
        | p0 :: rest =>
            rw [foldl_pushCons_all_iff, foldl_addPath_all_iff (p0 :: rest) h]
            simp only [List.all_eq_true, List.mem_map]
            constructor
            · rintro ⟨⟨ha, hb⟩, hc⟩
              refine ⟨ha, hb, ?_⟩
              rintro c ⟨pj, hpj, rfl⟩
              exact hc pj hpj
            · rintro ⟨ha, hb, hc⟩
              exact ⟨⟨ha, hb⟩, fun pj hpj => hc _ ⟨pj, hpj, rfl⟩⟩
      · simp only [h3, if_false]; simp

theorem foldl_processIntent_all_iff {st : GenSt} {w : Weights}
    (intents : List Intent) (h : GoodSt st) :
    ((intents.foldl processIntent st).cons.all (evalConstr w) = true) ↔
      (st.cons.all (evalConstr w) = true ∧
        ∀ it ∈ intents, (∀ k ∈ intentKeys it, 0 < w k) ∧
          (intentCons it).all (evalConstr w) = true) := by
  induction intents generalizing st with
  | nil => simp
  | cons it its ih =>
      rw [List.foldl_cons, ih (goodSt_processIntent it h), processIntent_all_iff it h]
      constructor
      · rintro ⟨⟨ha, hb, hc⟩, hd⟩
        refine ⟨ha, fun x hx => ?_⟩
        rcases List.mem_cons.mp hx with rfl | hx
        · exact ⟨hb, hc⟩
        · exact hd x hx
      · rintro ⟨ha, hb⟩
        exact ⟨⟨ha, (hb it (by simp)).1, (hb it (by simp)).2⟩,
          fun x hx => hb x (by simp [hx])⟩

/-- The semantic characterisation of `_detection`'s constraint system. -/
theorem detectConstraints_all_iff (links : List (String × String))
    (intents : List Intent) (w : Weights) :
    ((detectConstraints links intents).all (evalConstr w) = true) ↔
      ((initGenSt links).cons.all (evalConstr w) = true ∧
        ∀ it ∈ intents, (∀ k ∈ intentKeys it, 0 < w k) ∧
          (intentCons it).all (evalConstr w) = true) :=
  foldl_processIntent_all_iff intents (goodSt_init links)

/-- The oracle is antitone in the intent list: removing intents preserves
satisfiability. -/
theorem detectionSat_of_sublist (links : List (String × String))
    {intents intents' : List Intent}
    (hsub : ∀ it ∈ intents', it ∈ intents)
    (h : DetectionSat links intents) : DetectionSat links intents' := by
  rcases h with ⟨w, hw⟩
  rw [detectConstraints_all_iff] at hw
  exact ⟨w, (detectConstraints_all_iff links intents' w).mpr
    ⟨hw.1, fun it hit => hw.2 it (hsub it hit)⟩⟩

theorem selectIntents_mono {intents : List Intent} {s t : Finset ℕ}
    (hst : s ⊆ t) : ∀ it ∈ selectIntents intents s, it ∈ selectIntents intents t := by
  intro it hit
  unfold selectIntents at hit ⊢
  rw [List.mem_filterMap] at hit ⊢
  rcases hit with ⟨j, hj, hjit⟩
  refine ⟨j, hj, ?_⟩
  by_cases hs : j + 1 ∈ s
  · rw [if_pos hs] at hjit
    rw [if_pos (hst hs)]
    exact hjit
  · rw [if_neg hs] at hjit
    exact absurd hjit (by simp)

/-- `IntentProcessor.check` is monotone: a SAT verdict on a set implies a
SAT verdict on each of its subsets (used to justify the monotonicity
hypothesis placed on the abstract oracle below). -/
theorem oracleSat_mono (links : List (String × String)) (intents : List Intent)
    {s t : Finset ℕ} (hst : s ⊆ t) (h : oracleSat links intents t) :
    oracleSat links intents s := by
  unfold oracleSat at h ⊢
  by_cases hs : s = ∅
  · simp [hs]
  · rw [if_neg hs]
    by_cases ht : t = ∅
    · exact absurd (Finset.subset_empty.mp (ht ▸ hst)) hs
    · rw [if_neg ht] at h
      exact detectionSat_of_sublist links (selectIntents_mono hst) h

/-! ## Concrete scenarios on the triangle topology

Triangle `A–B–C` with the chord `A–C` (the topology of the spec's concrete
scenarios): links A–B, B–C, A–C, each expanded to both directions. -/

def triLinks : List (String × String) := [("A", "B"), ("B", "C"), ("A", "C")]

/-- `I1 = ECMP(A→C, [[A,C],[A,B,C]])` from spec scenario 2. -/
def iEcmpAC : Intent := ⟨"OSPF", "ECMP", "A", "C", [["A", "C"], ["A", "B", "C"]]⟩

/-- `I2 = simple(A→C, [A,C])` from spec scenario 2. -/
def iSimpleAC : Intent := ⟨"OSPF", "simple", "A", "C", [["A", "C"]]⟩

def intentsC1 : List Intent := [iEcmpAC, iSimpleAC]

/-- A weight assignment with `w(A→C) = 2` and all other edges `1`. -/
def wC1 : Weights := fun k => if k = "A_C" then 2 else 1

/-- Claim C1: the spec expects `check {ECMP(A→C,[[A,C],[A,B,C]]), simple(A→C,[A,C])}`
to be UNSAT on the triangle-with-chord topology, and expects every SAT
witness to satisfy each simple intent's strict-shortest-path contract.
The code disagrees: `_process_simple_intent` generates no shortest-path
constraint at all and `_detection` runs no CEGAR refinement, so the pair
is satisfiable (first conjunct), and every model of the generated
constraints in fact violates the strict-shortest contract of the simple
intent, because the ECMP equality forces the declared path `[A,C]` to tie
with `[A,B,C]` (second conjunct). -/
theorem C1_ecmp_simple_pair_sat_in_code :
    oracleSat triLinks intentsC1 {1, 2} ∧
    ∀ w : Weights,
      (detectConstraints triLinks intentsC1).all (evalConstr w) = true →
      ¬ pathCost w (pathKeys ["A", "C"]) < pathCost w (pathKeys ["A", "B", "C"]) := by
  constructor
  · rw [oracleSat, if_neg (by decide)]
    have hsel : selectIntents intentsC1 {1, 2} = [iEcmpAC, iSimpleAC] := by decide
    rw [hsel]
    exact ⟨wC1, by decide⟩
  · intro w h
    have hlist : detectConstraints triLinks intentsC1 =
        [Constr.pos "A_B", Constr.pos "B_A", Constr.pos "B_C", Constr.pos "C_B",
         Constr.pos "A_C", Constr.pos "C_A",
         Constr.eq ["A_C"] ["A_B", "B_C"]] := by rfl
    rw [hlist] at h
    simp only [List.all_cons, List.all_nil, Bool.and_eq_true, evalConstr,
      decide_eq_true_eq] at h
    simp only [show pathKeys ["A", "C"] = ["A_C"] from rfl,
      show pathKeys ["A", "B", "C"] = ["A_B", "B_C"] from rfl,
      pathCost, List.map_cons, List.map_nil, List.sum_cons, List.sum_nil]
    have heq := h.2.2.2.2.2.2.1
    simp only [pathCost, List.map_cons, List.map_nil, List.sum_cons, List.sum_nil] at heq
    omega

theorem C1_witness :
    (detectConstraints triLinks intentsC1).all (evalConstr wC1) = true ∧
    ¬ pathCost wC1 (pathKeys ["A", "C"]) < pathCost wC1 (pathKeys ["A", "B", "C"]) :=
  ⟨by decide, C1_ecmp_simple_pair_sat_in_code.2 wC1 (by decide)⟩

/-! ## Unknown-node behaviour (claim C7) -/

/-- A simple intent whose path uses the node `D`, absent from the triangle
topology. -/
def iSimpleAD : Intent := ⟨"OSPF", "simple", "A", "D", [["A", "D"]]⟩

/-- Claim C7 counterexample: the spec says an intent referencing a node
absent from the topology makes oracle setup fail fast (exit 1).  In the
code no validation exists: `check` on the intent `simple(A→D, [A,D])`
over the triangle topology (which has no node `D`) completes normally and
returns SAT, so the analysis continues rather than failing. -/
theorem C7_counterexample_unknown_node_no_failure :
    "D" ∉ topoNodes triLinks ∧ oracleSat triLinks [iSimpleAD] {1} := by
  refine ⟨by decide, ?_⟩
  rw [oracleSat, if_neg (by decide)]
  have hsel : selectIntents [iSimpleAD] {1} = [iSimpleAD] := by decide
  rw [hsel]
  exact ⟨fun _ => 1, by decide⟩

/-- Claim C7 (amended): when an intent references an edge between nodes
not in the topology, `_get_path_expression` silently creates a fresh
weight variable (here `A_D`, which is not among the topology's edge
variables) with only a positivity constraint, and the oracle returns a
normal verdict instead of failing. -/
theorem C7_unknown_node_fresh_variable :
    Constr.pos "A_D" ∈ detectConstraints triLinks [iSimpleAD] ∧
    "A_D" ∉ (initGenSt triLinks).seen ∧
    detectConstraints triLinks [iSimpleAD] =
      (initGenSt triLinks).cons ++ [Constr.pos "A_D"] := by
  refine ⟨by decide, by decide, by rfl⟩

/-! ## All-simple subsets are SAT (claim C9) -/

/-- Claim C9: for every non-empty index set whose selected intents are all
of kind `simple`, the oracle's check returns SAT: the only constraints
generated are strict-positivity constraints on edge weights, satisfied by
the all-ones assignment. -/
theorem C9_all_simple_sat (links : List (String × String))
    (intents : List Intent) (s : Finset ℕ) (hne : s ≠ ∅)
    (hs : ∀ it ∈ selectIntents intents s, it.kind = "simple") :
    oracleSat links intents s := by
  rw [oracleSat, if_neg hne]
  exact ⟨fun _ => 1, all_pos_sat _ (detectConstraints_simple_all_pos _ _ hs)⟩

theorem C9_witness :
    (({1} : Finset ℕ) ≠ ∅ ∧
      ∀ it ∈ selectIntents [iSimpleAC] {1}, it.kind = "simple") ∧
    oracleSat triLinks [iSimpleAC] {1} :=
  ⟨⟨by decide, by decide⟩,
    C9_all_simple_sat triLinks [iSimpleAC] {1} (by decide) (by decide)⟩

/-! ## The CEGAR refinement loop of the original detection (claim C5)

`detection` in src/detectConflictOSPForiginal.py wraps the constraint
generation in a `while True:` refinement loop with no iteration bound: it
repeatedly computes shortest paths on the concretely weighted graph,
records offending paths, adds `cost(declared) < cost(offender)`
constraints, and re-solves.  We embed the loop for the case of a single
`simple` intent with one declared path (the other intent kinds' branches
do not fire on such input).  The loop is simulated against a supplied
sequence of Z3 models: Z3 returns some model of the current constraints,
and the simulation checks that each supplied model is indeed a model, so
a successful simulation is a legal execution of the source loop. -/

/-- Weight assignment from an association list, defaulting to `1` for
unlisted edges (a Z3 model may omit don't-care variables; the concrete
graph keeps the initial weight `1` for them). -/
def wOf (m : List (String × Int)) : Weights :=
  fun k => ((m.find? (fun e => e.1 == k)).map Prod.snd).getD 1

/-- `k_shortest_paths(G, src, dst, 1)`: the source function enumerates
simple paths in nondecreasing weight order and stops at the first path
strictly heavier than the collected ones, so for `k = 1` it returns
exactly the minimum-cost paths (here computed over the fixed list of all
simple `src→dst` paths of the topology). -/
def minCostPaths (w : Weights) (paths : List (List String)) : List (List String) :=
  match (paths.map (fun p => pathCost w (pathKeys p))).min? with
  | none => []
  | some m => paths.filter (fun p => decide (pathCost w (pathKeys p) = m))

/-- The node set of a path (the source compares paths as `frozenset`s of
their nodes). -/
def pathNodeSet (p : List String) : Finset String := p.toFinset

/-- One refinement pass of `detection`'s loop for a single `simple` intent
with the declared path `decl`: if the current shortest paths' node sets
already coincide with the declared one, no constraint is added (`none`);
otherwise register fresh edge variables of the offending and declared
paths (`get_path_expr`) and add `cost(decl) < cost(Q)` for every
offending path `Q`. -/
def cegarRefineSimple (decl : List String) (allPaths : List (List String))
    (gw : Weights) (st : GenSt) : Option GenSt :=
  let kmin := minCostPaths gw allPaths
  if (kmin.map pathNodeSet).toFinset = ([decl].map pathNodeSet).toFinset then
    none
  else
    let inter := kmin.filter (fun p => decide (p ∈ [decl]))
    let offenders := kmin.filter (fun p => decide (p ∉ inter))
    let st1 := offenders.foldl addPath st
    let st2 := addPath st1 decl
    some (offenders.foldl
      (fun s q => pushCons s (Constr.lt (pathKeys decl) (pathKeys q))) st2)

/-- The `while True:` loop of `detection`, simulated against a list of
Z3 models.  Each iteration either terminates with the SAT verdict (no
offending path remains, no `path_preference` intent is present) or adds
refinement constraints and consumes the next supplied model after
verifying that it satisfies the accumulated constraints.  The returned
number counts loop iterations.  `none` means the supplied model sequence
is not a legal execution (or is exhausted). -/
def cegarLoopSimple (decl : List String) (allPaths : List (List String)) :
    List (List (String × Int)) → GenSt → Weights → ℕ → Option (Bool × ℕ)
  | models, st, gw, count =>
    match cegarRefineSimple decl allPaths gw st with
    | none => some (true, count + 1)
    | some st' =>
        match models with
        | [] => none
        | m :: rest =>
            if st'.cons.all (evalConstr (wOf m)) = true then
              cegarLoopSimple decl allPaths rest st' (wOf m) (count + 1)
            else none

/-- `detection` on a single `simple` intent: generate the initial
constraints (positivity only, as for `IntentProcessor`), check them
against the initial witness `w0`, then run the refinement loop starting
from the all-ones concrete graph. -/
def cegarCheckSimple (links : List (String × String)) (it : Intent)
    (decl : List String) (allPaths : List (List String))
    (w0 : List (String × Int)) (models : List (List (String × Int))) :
    Option (Bool × ℕ) :=
  let st0 := [it].foldl processIntent (initGenSt links)
  if st0.cons.all (evalConstr (wOf w0)) = true then
    cegarLoopSimple decl allPaths models st0 (fun _ => 1) 0
  else none

/-- Star-with-chord topology: hub nodes `A`, `C` joined directly and via
eight intermediate nodes `B1..B8`. -/
def starLinks : List (String × String) :=
  [("A", "C"),
   ("A", "B1"), ("B1", "C"), ("A", "B2"), ("B2", "C"),
   ("A", "B3"), ("B3", "C"), ("A", "B4"), ("B4", "C"),
   ("A", "B5"), ("B5", "C"), ("A", "B6"), ("B6", "C"),
   ("A", "B7"), ("B7", "C"), ("A", "B8"), ("B8", "C")]

/-- All simple `A→C` paths of `starLinks`. -/
def starPathsAC : List (List String) :=
  [["A", "C"],
   ["A", "B1", "C"], ["A", "B2", "C"], ["A", "B3", "C"], ["A", "B4", "C"],
   ["A", "B5", "C"], ["A", "B6", "C"], ["A", "B7", "C"], ["A", "B8", "C"]]

/-- The single simple intent declaring the path `A→B1→C`. -/
def iSimpleB1 : Intent := ⟨"OSPF", "simple", "A", "C", [["A", "B1", "C"]]⟩

/-- Baseline weights for the adversarial models: chord expensive, all
detour edges moderately expensive. -/
def baseW : List (String × Int) :=
  [("A_C", 10),
   ("A_B1", 5), ("B1_C", 5), ("A_B2", 5), ("B2_C", 5),
   ("A_B3", 5), ("B3_C", 5), ("A_B4", 5), ("B4_C", 5),
   ("A_B5", 5), ("B5_C", 5), ("A_B6", 5), ("B6_C", 5),
   ("A_B7", 5), ("B7_C", 5), ("A_B8", 5), ("B8_C", 5)]

/-- Adversarial model: declared detour costs 3, the detour through `b`
costs 2 (the unique current shortest path), everything else is heavy.
`find?` takes the first match, so the overrides shadow `baseW`. -/
def mAdv (b : String) : List (String × Int) :=
  [("A_B1", 1), ("B1_C", 2), ("A_" ++ b, 1), (b ++ "_C", 1)] ++ baseW

/-- Final model: the declared path becomes the unique shortest path. -/
def mFinal : List (String × Int) := [("A_B1", 1), ("B1_C", 1)] ++ baseW

/-- The adversarial Z3 model sequence: each model satisfies all
constraints accumulated so far yet makes a fresh detour the unique
shortest path, forcing one more refinement iteration. -/
def advModels : List (List (String × Int)) :=
  [mAdv "B2", mAdv "B3", mAdv "B4", mAdv "B5",
   mAdv "B6", mAdv "B7", mAdv "B8", mFinal]

/-- Claim C5 counterexample: the spec claims the CEGAR refinement loop
performs at most `2·|S| + 5` iterations.  The source loop (`while True:`
in `detection`) has no iteration bound: on the star-with-chord topology
with the single simple intent `A→B1→C` (`|S| = 1`, so the claimed cap is
7), the adversarial—but legal—Z3 model sequence `advModels` drives the
loop through 9 iterations. -/
theorem C5_counterexample_cap_exceeded :
    (cegarCheckSimple starLinks iSimpleB1 ["A", "B1", "C"] starPathsAC []
        advModels).map Prod.snd = some 9 ∧
    2 * 1 + 5 < 9 := by
  constructor
  · rfl
  · norm_num

/-- Claim C5 (amended): the oracle never surfaces an INDETERMINATE
verdict.  The very execution that exceeds the claimed iteration cap still
terminates with the ordinary SAT verdict (`true`), and the driver's
oracle (`IntentProcessor.check`) returns a two-valued verdict with no
loop at all. -/
theorem C5_no_indeterminate_verdict :
    cegarCheckSimple starLinks iSimpleB1 ["A", "B1", "C"] starPathsAC []
        advModels = some (true, 9) := by
  rfl

/-! ## Map solver clause semantics (claims C8, C10)

`MapSolver` (src/mapsolvers.py) maintains a MiniSat instance over one
Boolean variable per intent index (1-based).  Clauses are only ever added:
`block_down(B)` adds the clause of positive literals of the complement of
`B`, `block_up(B)` adds the clause of negated literals of `B`, and
`MinisatMapSolver.block_small_seed` adds the negated-literal clause of a
too-small candidate seed.  The SAT backend (`minisolvers`, not part of
src/) is modelled from the spec: `solve()` succeeds with a model
satisfying every added clause, and `get_seed` reads off the true
variables among `1..n`. -/

/-- A MiniSat clause: integer literals, positive = variable true. -/
abbrev Clause := List Int

/-- Truth of one literal under a Boolean assignment of the variables. -/
def litSat (a : ℕ → Bool) (l : Int) : Bool :=
  if 0 < l then a l.toNat else !(a (-l).toNat)

/-- Truth of a clause (some literal is satisfied). -/
def clauseSat (a : ℕ → Bool) (c : Clause) : Bool := c.any (litSat a)

/-- The 1-based intent indices `1..n` (`self.all_n`). -/
def idxList (n : ℕ) : List ℕ := (List.range n).map (· + 1)

/-- `get_seed`: the true variables among `1..n` of the current model. -/
def seedOfModel (a : ℕ → Bool) (n : ℕ) : List ℕ :=
  (idxList n).filter (fun i => a i)

/-- The clause added by `block_up(B)`: `[-i for i in frompoint]`. -/
def blockUpClause (B : List ℕ) : Clause := B.map (fun (i : ℕ) => -(i : Int))

/-- `self.complement(aset)`: the indices of `1..n` outside `B`. -/
def complementList (n : ℕ) (B : List ℕ) : List ℕ :=
  (idxList n).filter (fun i => decide (i ∉ B))

/-- The clause added by `block_down(B)`: the positive literals of the
complement of `B`. -/
def blockDownClause (n : ℕ) (B : List ℕ) : Clause :=
  (complementList n B).map (fun (i : ℕ) => (i : Int))

/-- The clause-adding operations of the map solver. -/
inductive MapOp where
  | blockUp : List ℕ → MapOp
  | blockDown : List ℕ → MapOp
  | blockSmallSeed : ℕ → List ℕ → MapOp
  | addClause : Clause → MapOp
deriving DecidableEq

/-- Effect of one operation on the clause database.  `blockSmallSeed`
mirrors `MinisatMapSolver.block_small_seed`: only a candidate strictly
smaller than the cardinality threshold is blocked, by the negated-literal
clause of exactly that seed. -/
def applyOp (n : ℕ) (cs : List Clause) : MapOp → List Clause
  | .blockUp B => cs ++ [blockUpClause B]
  | .blockDown B => cs ++ [blockDownClause n B]
  | .blockSmallSeed t B => if B.length < t then cs ++ [blockUpClause B] else cs
  | .addClause c => cs ++ [c]

/-- Effect of a sequence of operations (clauses are never removed). -/
def applyOps (n : ℕ) (cs : List Clause) (ops : List MapOp) : List Clause :=
  ops.foldl (applyOp n) cs

theorem mem_applyOp {n : ℕ} {cs : List Clause} {c : Clause} (op : MapOp)
    (h : c ∈ cs) : c ∈ applyOp n cs op := by
  cases op with
  | blockUp B => exact List.mem_append.mpr (Or.inl h)
  | blockDown B => exact List.mem_append.mpr (Or.inl h)
  | blockSmallSeed t B =>
      unfold applyOp
      by_cases ht : B.length < t
      · simp only [ht, if_true]
        exact List.mem_append.mpr (Or.inl h)
      · simpa [ht]
  | addClause c' => exact List.mem_append.mpr (Or.inl h)

theorem mem_applyOps {n : ℕ} {cs : List Clause} {c : Clause} (ops : List MapOp)
    (h : c ∈ cs) : c ∈ applyOps n cs ops := by
  unfold applyOps
  induction ops generalizing cs with
  | nil => exact h
  | cons op ops ih => exact ih (mem_applyOp op h)

/-- Zero is never a seed element (seeds are 1-based). -/
theorem zero_not_mem_seedOfModel (a : ℕ → Bool) (n : ℕ) :
    0 ∉ seedOfModel a n := by
  unfold seedOfModel idxList
  intro h
  rcases List.mem_filter.mp h with ⟨h0, _⟩
  rcases List.mem_map.mp h0 with ⟨j, _, hj⟩
  omega

/-- A model satisfying the block-up clause of `B` yields a seed that does
not include `B`. -/
theorem blockUpClause_sat_not_superset {a : ℕ → Bool} {B : List ℕ} {n : ℕ}
    (h : clauseSat a (blockUpClause B) = true) : ¬ B ⊆ seedOfModel a n := by
  intro hsub
  unfold clauseSat blockUpClause at h
  rw [List.any_eq_true] at h
  rcases h with ⟨l, hl, hsat⟩
  rcases List.mem_map.mp hl with ⟨i, hiB, rfl⟩
  have hi := hsub hiB
  by_cases hz : i = 0
  · exact zero_not_mem_seedOfModel a n (hz ▸ hi)
  · have hpos : ¬ (0 : Int) < -(i : Int) := by
      have : (0 : Int) < (i : Int) := by exact_mod_cast Nat.pos_of_ne_zero hz
      omega
    rw [litSat, if_neg hpos] at hsat
    simp only [neg_neg, Int.toNat_natCast, Bool.not_eq_true'] at hsat
    rcases List.mem_filter.mp hi with ⟨_, hai⟩
    rw [hsat] at hai
    exact Bool.false_ne_true hai

/-- A model satisfying the block-down clause of `B` yields a seed that is
not contained in `B`. -/
theorem blockDownClause_sat_not_subset {a : ℕ → Bool} {B : List ℕ} {n : ℕ}
    (h : clauseSat a (blockDownClause n B) = true) :
    ¬ seedOfModel a n ⊆ B := by
  intro hsub
  unfold clauseSat blockDownClause at h
  rw [List.any_eq_true] at h
  rcases h with ⟨l, hl, hsat⟩
  rcases List.mem_map.mp hl with ⟨i, hic, rfl⟩
  rcases List.mem_filter.mp hic with ⟨hirange, hiB⟩
  have hiB2 : i ∉ B := by simpa using hiB
  have hipos : 0 < i := by
    unfold idxList at hirange
    rcases List.mem_map.mp hirange with ⟨j, _, hj⟩
    omega
  rw [litSat, if_pos (by exact_mod_cast hipos)] at hsat
  rw [Int.toNat_natCast] at hsat
  have hiseed : i ∈ seedOfModel a n := by
    unfold seedOfModel
    exact List.mem_filter.mpr ⟨hirange, hsat⟩
  exact hiB2 (hsub hiseed)

/-- Claim C8: after `block_up(B₁)` and `block_down(B₂)`, no seed returned
from any later model of the clause database includes `B₁` or is included
in `B₂`: the blocking clauses persist through every later clause-adding
operation, and any model of the database falsifies both containments. -/
theorem C8_blocking_monotone (n : ℕ) (B₁ B₂ : List ℕ) (cs0 : List Clause)
    (ops : List MapOp) (a : ℕ → Bool)
    (hmodel : ∀ c ∈ applyOps n
        (cs0 ++ [blockUpClause B₁, blockDownClause n B₂]) ops,
      clauseSat a c = true) :
    ¬ B₁ ⊆ seedOfModel a n ∧ ¬ seedOfModel a n ⊆ B₂ := by
  have hup : clauseSat a (blockUpClause B₁) = true :=
    hmodel _ (mem_applyOps ops (by simp))
  have hdown : clauseSat a (blockDownClause n B₂) = true :=
    hmodel _ (mem_applyOps ops (by simp))
  exact ⟨blockUpClause_sat_not_superset hup, blockDownClause_sat_not_subset hdown⟩

theorem C8_witness :
    (∀ c ∈ applyOps 3
        ([] ++ [blockUpClause [1, 2], blockDownClause 3 [2, 3]])
        [MapOp.blockUp [3]],
      clauseSat (fun i => i == 1) c = true) ∧
    (¬ [1, 2] ⊆ seedOfModel (fun i => i == 1) 3 ∧
      ¬ seedOfModel (fun i => i == 1) 3 ⊆ [2, 3]) :=
  ⟨by decide,
    C8_blocking_monotone 3 [1, 2] [2, 3] [] [MapOp.blockUp [3]]
      (fun i => i == 1) (by decide)⟩

/-- Claim C10: when `next_seed_with_cardinality` obtains a candidate seed
strictly smaller than the positive cardinality threshold, the clause added
by `block_small_seed` permanently excludes that seed and every superset of
it: under any later clause database extending it, every model yields a
seed that does not include the discarded one. -/
theorem C10_small_seed_blocked (n threshold : ℕ) (small : List ℕ)
    (cs0 : List Clause) (ops : List MapOp) (a : ℕ → Bool)
    (hsmall : small.length < threshold)
    (hmodel : ∀ c ∈ applyOps n
        (applyOp n cs0 (MapOp.blockSmallSeed threshold small)) ops,
      clauseSat a c = true) :
    ¬ small ⊆ seedOfModel a n := by
  have hcl : blockUpClause small ∈
      applyOp n cs0 (MapOp.blockSmallSeed threshold small) := by
    simp only [applyOp, if_pos hsmall]
    simp
  exact blockUpClause_sat_not_superset (hmodel _ (mem_applyOps ops hcl))

theorem C10_witness :
    (([1] : List ℕ).length < 2 ∧
      ∀ c ∈ applyOps 3 (applyOp 3 [] (MapOp.blockSmallSeed 2 [1]))
          [MapOp.blockDown [2]],
        clauseSat (fun i => i == 3) c = true) ∧
    ¬ [1] ⊆ seedOfModel (fun i => i == 3) 3 :=
  ⟨⟨by decide, by decide⟩,
    C10_small_seed_blocked 3 2 [1] [] [MapOp.blockDown [2]]
      (fun i => i == 3) (by decide) (by decide)⟩

/-! ## The divide-and-conquer MUS shrinker (src/intent_marco_polo.py)

The shrinker consults the oracle through `self.intent_processor.check`;
verdicts depend only on the index set, so the functions are parameterised
by an abstract Boolean oracle `chk : Finset ℕ → Bool` (`true` = SAT).
The recursion of `_divide_conquer_recursive` / `_adjust_split_point` can
diverge (a seed containing a singleton UNSAT intent recurses on itself),
so the embedding carries a fuel parameter; every terminating execution of
the source is reproduced by a sufficiently large fuel, and the soundness
results below hold for every fuel. -/

/-- Abstract oracle verdicts (`true` = SAT). -/
abbrev OracleB := Finset ℕ → Bool

/-- Monotonicity of an oracle: subsets of SAT sets are SAT.  (The lemma
`oracleSat_mono` shows the program's Z3 oracle has this property.) -/
def OracleMono (chk : OracleB) : Prop :=
  ∀ s t : Finset ℕ, s ⊆ t → chk t = true → chk s = true

/-- `_is_mus`: sets of size ≤ 1 are rejected outright; otherwise the set
must be UNSAT and every one-element-removed (non-empty) subset SAT. -/
def isMus (chk : OracleB) (l : List ℕ) : Bool :=
  if l.length ≤ 1 then false
  else if chk l.toFinset = true then false
  else l.all (fun c =>
    let r := l.filter (fun i => decide (i ≠ c))
    r.isEmpty || chk r.toFinset)

/-- One deletion attempt of `_linear_fallback`: drop `c` from the current
set if the rest is non-empty and still UNSAT. -/
def lfStep (chk : OracleB) (cur : Finset ℕ) (c : ℕ) : Finset ℕ :=
  let t := cur.erase c
  if t ≠ ∅ ∧ chk t = false then t else cur

/-- `_linear_fallback`'s deletion loop: drop single elements of the
original list in order whenever the rest stays UNSAT and non-empty. -/
def linearFallback (chk : OracleB) (l : List ℕ) : Finset ℕ :=
  l.foldl (lfStep chk) l.toFinset

/-- `_intent_set_in_known_muses`: exact set equality against a list. -/
def inKnown (s : Finset ℕ) (known : List (Finset ℕ)) : Bool :=
  known.any (fun m => decide (m = s))

/-- `_build_remaining_set`: the original set minus every found MUS (the
source materialises the Python set in hash order; we keep the original
list order, which is the same set). -/
def buildRemaining (l : List ℕ) (found : List (Finset ℕ)) : List ℕ :=
  let rem := found.foldl (fun s m => s \ m) l.toFinset
  l.filter (fun i => decide (i ∈ rem))

/-- The split positions tried by `_adjust_split_point`, as rational
floors of `len·0.3, len·0.7, len·0.25, len·0.75` clamped to `1..len-1`.
(The source computes the products in floating point; for the list lengths
exercised in this development the values coincide, and the soundness
theorem below does not depend on the split position.) -/
def ratioMids (len : ℕ) : List ℕ :=
  [max 1 (min (len - 1) (len * 3 / 10)),
   max 1 (min (len - 1) (len * 7 / 10)),
   max 1 (min (len - 1) (len * 1 / 4)),
   max 1 (min (len - 1) (len * 3 / 4))]

/-- SAT status of one half (`self.intent_processor.check(s1) if s1 else
(True, None)`). -/
def halfSat (chk : OracleB) (h : List ℕ) : Bool :=
  if h.isEmpty then true else chk h.toFinset

/-- Both halves of the split of `l` at `mid` are SAT. -/
def midBothSat (chk : OracleB) (l : List ℕ) (mid : ℕ) : Bool :=
  halfSat chk (l.take mid) && halfSat chk (l.drop mid)

/-- `_divide_conquer_recursive`, with `_adjust_split_point` inlined in the
both-halves-SAT branch.  Faithful details: the `return` after recording a
MUS sits inside the `if verbose:` block of the source, so with
`verbose = false` the function records the MUS and *continues* splitting;
`_adjust_split_point` takes the first ratio split with a non-SAT side and
otherwise falls back to `_linear_fallback`, whose result is appended only
if non-empty and new. -/
def dcr (chk : OracleB) (verbose : Bool) :
    ℕ → List ℕ → List (Finset ℕ) → List (Finset ℕ)
  | 0, _, found => found
  | fuel + 1, l, found =>
    if l.length ≤ 1 then found
    else if chk l.toFinset = true then found
    else if isMus chk l = true ∧ verbose = true then found ++ [l.toFinset]
    else
      let found0 := if isMus chk l = true then found ++ [l.toFinset] else found
      let mid0 := l.length / 2
      if midBothSat chk l mid0 = true then
        -- _adjust_split_point
        if l.length ≤ 2 then
          if isMus chk l = true then found0 ++ [l.toFinset] else found0
        else
          match (ratioMids l.length).find? (fun mid => !midBothSat chk l mid) with
          | some mid =>
              let s1 := l.take mid
              let s2 := l.drop mid
              let f1 := if halfSat chk s1 = false ∧ s1.isEmpty = false then
                  dcr chk verbose fuel s1 found0 else found0
              if halfSat chk s2 = false ∧ s2.isEmpty = false then
                dcr chk verbose fuel s2 f1 else f1
          | none =>
              let m := linearFallback chk l
              if m ≠ ∅ ∧ inKnown m found0 = false then found0 ++ [m] else found0
      else
        let s1 := l.take mid0
        let s2 := l.drop mid0
        let f1 := if halfSat chk s1 = false ∧ s1.isEmpty = false then
            dcr chk verbose fuel s1 found0 else found0
        let f2 := if halfSat chk s2 = false ∧ s2.isEmpty = false then
            dcr chk verbose fuel s2 f1 else f1
        let rem := buildRemaining l f2
        if rem.isEmpty = false ∧ chk rem.toFinset = false then
          dcr chk verbose fuel rem f2
        else f2

/-! ### MSS-feedback hitting-set mining (`_mss_feedback_mining`) -/

/-- A candidate hits every MCS. -/
def hitsAll (cand : Finset ℕ) (mcses : List (Finset ℕ)) : Bool :=
  mcses.all (fun m => decide (cand ∩ m ≠ ∅))

/-- `_exact_minimal_hitting_sets`: all subsets of the union of the MCSes,
by increasing size, that hit every MCS and have no proper subset doing
so. -/
def exactMinimalHittingSets (mcses : List (Finset ℕ)) : List (Finset ℕ) :=
  let elems := (mcses.foldl (· ∪ ·) ∅).sort (· ≤ ·)
  (((List.range elems.length).map (· + 1)).flatMap
      (fun size => elems.sublistsLen size)).filterMap
    (fun c =>
      if hitsAll c.toFinset mcses = true ∧
          c.sublists.all
            (fun s => s.length == c.length || !hitsAll s.toFinset mcses) = true
      then some c.toFinset else none)

/-- One greedy pick of `_heuristic_hitting_sets`: the first element (in
first-appearance order) with the strictly largest positive hit count. -/
def greedyPick (freqOrder : List ℕ) (remaining : List (Finset ℕ)) : Option ℕ :=
  (freqOrder.foldl
    (fun best e =>
      let c := (remaining.filter (fun m => decide (e ∈ m))).length
      match best with
      | none => if 0 < c then some (e, c) else none
      | some (be, bc) => if bc < c then some (e, c) else some (be, bc))
    none).map Prod.fst

/-- The greedy loop of `_heuristic_hitting_sets`. -/
def greedyHittingSet : ℕ → List ℕ → List (Finset ℕ) → Finset ℕ → Finset ℕ
  | 0, _, _, acc => acc
  | fuel + 1, freqOrder, remaining, acc =>
    if remaining.isEmpty then acc
    else
      match greedyPick freqOrder remaining with
      | none => acc
      | some e =>
          greedyHittingSet fuel freqOrder
            (remaining.filter (fun m => decide (e ∉ m))) (insert e acc)

/-- `_heuristic_hitting_sets`. -/
def heuristicHittingSets (mcses : List (Finset ℕ)) : List (Finset ℕ) :=
  let freqOrder := ((mcses.map (fun m => m.sort (· ≤ ·))).flatten).dedup
  let hs := greedyHittingSet (mcses.length + 1) freqOrder mcses ∅
  if hs = ∅ then [] else [hs]

/-- `_compute_minimal_hitting_sets`: singleton MCSes first, then the exact
(≤ 5 MCSes) or greedy computation, then the sequential subsumption
filter. -/
def computeMinimalHittingSets (mcses : List (Finset ℕ)) : List (Finset ℕ) :=
  if mcses.isEmpty then []
  else
    let singletons := mcses.filter (fun m => decide (m.card = 1))
    let hs := singletons ++
      (if mcses.length ≤ 5 then exactMinimalHittingSets mcses
       else heuristicHittingSets mcses)
    hs.foldl
      (fun uniq h =>
        if uniq.any (fun ex => decide (ex ⊆ h ∧ ex ≠ h)) = true then uniq
        else uniq ++ [h])
      []

/-- `_mss_feedback_mining`: candidate MUSes are minimal hitting sets of
the MCS complements of the known MSSes restricted to the seed; each is
kept only if inside the seed, non-empty, new, UNSAT, and minimal. -/
def mssFeedbackMining (chk : OracleB) (seed : Finset ℕ)
    (knownMsses : List (Finset ℕ)) (current : List (Finset ℕ)) :
    List (Finset ℕ) :=
  if knownMsses.isEmpty then []
  else
    let mcses := (knownMsses.map (fun mss => seed \ mss)).filter
      (fun m => decide (m ≠ ∅))
    if mcses.isEmpty then []
    else
      (computeMinimalHittingSets mcses).filter
        (fun p =>
          decide (p ⊆ seed) && decide (p ≠ ∅) && !inKnown p current &&
          !chk p && isMus chk (p.sort (· ≤ ·)))

/-- `find_all_muses_divide_conquer`: the recursion followed by the
MSS-feedback mining step. -/
def findAllMuses (chk : OracleB) (verbose : Bool) (fuel : ℕ) (seed : List ℕ)
    (knownMsses : List (Finset ℕ)) : List (Finset ℕ) :=
  let found := dcr chk verbose fuel seed []
  found ++ mssFeedbackMining chk seed.toFinset knownMsses found

/-! ### Soundness of every recorded MUS (towards claim C4) -/

/-- The property claimed of every yielded MUS: UNSAT, and SAT after
removing any single element. -/
def MusSound (chk : OracleB) (m : Finset ℕ) : Prop :=
  chk m = false ∧ ∀ c ∈ m, chk (m.erase c) = true

theorem toFinset_filter_ne (l : List ℕ) (c : ℕ) :
    (l.filter (fun i => decide (i ≠ c))).toFinset = l.toFinset.erase c := by
  ext x
  simp only [List.mem_toFinset, List.mem_filter, Finset.mem_erase,
    decide_eq_true_eq]
  tauto

theorem isMus_sound {chk : OracleB} (hempty : chk ∅ = true) {l : List ℕ}
    (h : isMus chk l = true) : MusSound chk l.toFinset := by
  unfold isMus at h
  split at h
  · simp at h
  split at h
  · simp at h
  next hsat =>
  refine ⟨by revert hsat; cases chk l.toFinset <;> simp, ?_⟩
  intro c hc
  have hcl : c ∈ l := List.mem_toFinset.mp hc
  have hall := List.all_eq_true.mp h c hcl
  simp only [Bool.or_eq_true] at hall
  rcases hall with hre | hchk
  · have hfe : (l.filter (fun i => decide (i ≠ c))) = [] :=
      List.isEmpty_iff.mp hre
    have : l.toFinset.erase c = ∅ := by
      rw [← toFinset_filter_ne, hfe]
      rfl
    rw [this]
    exact hempty
  · rw [← toFinset_filter_ne]
    exact hchk

theorem lfStep_subset (chk : OracleB) (cur : Finset ℕ) (c : ℕ) :
    lfStep chk cur c ⊆ cur := by
  simp only [lfStep]
  split
  · exact Finset.erase_subset c cur
  · exact Finset.Subset.refl cur

theorem lfStep_unsat {chk : OracleB} {cur : Finset ℕ} (c : ℕ)
    (h : chk cur = false) : chk (lfStep chk cur c) = false := by
  simp only [lfStep]
  split
  next hc => exact hc.2
  · exact h

theorem foldl_lfStep_sound {chk : OracleB} (hmono : OracleMono chk) :
    ∀ (todo : List ℕ) (cur : Finset ℕ), chk cur = false →
      chk (todo.foldl (lfStep chk) cur) = false ∧
      todo.foldl (lfStep chk) cur ⊆ cur ∧
      ∀ c ∈ todo.foldl (lfStep chk) cur, c ∈ todo →
        ((todo.foldl (lfStep chk) cur).erase c = ∅ ∨
          chk ((todo.foldl (lfStep chk) cur).erase c) = true) := by
  intro todo
  induction todo with
  | nil =>
      intro cur hcur
      exact ⟨hcur, Finset.Subset.refl cur, by simp⟩
  | cons c rest ih =>
      intro cur hcur
      rw [List.foldl_cons]
      obtain ⟨h1, h2, h3⟩ := ih (lfStep chk cur c) (lfStep_unsat c hcur)
      refine ⟨h1, h2.trans (lfStep_subset chk cur c), ?_⟩
      intro x hx hxmem
      rcases List.mem_cons.mp hxmem with rfl | hxr
      · -- x is the element processed first
        by_cases hcond : cur.erase x ≠ ∅ ∧ chk (cur.erase x) = false
        · -- the deletion was taken: x is no longer in the running set
          have hxnot : x ∉ lfStep chk cur x := by
            simp only [lfStep]
            rw [if_pos hcond]
            exact Finset.not_mem_erase x cur
          exact absurd (h2 hx) hxnot
        · -- the deletion was rejected: the erased set was empty or SAT
          push_neg at hcond
          by_cases hemp : cur.erase x = ∅
          · left
            have hsub : (rest.foldl (lfStep chk) (lfStep chk cur x)).erase x ⊆
                cur.erase x :=
              Finset.erase_subset_erase x (h2.trans (lfStep_subset chk cur x))
            rw [hemp] at hsub
            exact Finset.subset_empty.mp hsub
          · right
            have hchk : chk (cur.erase x) = true := by
              cases hb : chk (cur.erase x)
              · exact absurd hb (hcond hemp)
              · rfl
            have hsub : (rest.foldl (lfStep chk) (lfStep chk cur x)).erase x ⊆
                cur.erase x :=
              Finset.erase_subset_erase x (h2.trans (lfStep_subset chk cur x))
            exact hmono _ _ hsub hchk
      · exact h3 x hx hxr

theorem linearFallback_sound {chk : OracleB} (hmono : OracleMono chk)
    (hempty : chk ∅ = true) {l : List ℕ} (hl : chk l.toFinset = false) :
    MusSound chk (linearFallback chk l) := by
  obtain ⟨h1, h2, h3⟩ := foldl_lfStep_sound hmono l l.toFinset hl
  refine ⟨h1, ?_⟩
  intro c hc
  have hcl : c ∈ l := List.mem_toFinset.mp (h2 hc)
  rcases h3 c hc hcl with he | he
  · rw [linearFallback, he]
    exact hempty
  · exact he

set_option maxHeartbeats 1000000 in
theorem dcr_sound {chk : OracleB} (hmono : OracleMono chk)
    (hempty : chk ∅ = true) (verbose : Bool) :
    ∀ (fuel : ℕ) (l : List ℕ) (found : List (Finset ℕ)),
      (∀ x ∈ found, MusSound chk x) →
      ∀ m ∈ dcr chk verbose fuel l found, MusSound chk m := by
  intro fuel
  induction fuel with
  | zero =>
      intro l found hf m hm
      exact hf m (by simpa [dcr] using hm)
  | succ fuel ih =>
      intro l found hf m hm
      have hstep : ∀ (cond : Prop) (hd : Decidable cond) (li : List ℕ)
          (fnd : List (Finset ℕ)), (∀ x ∈ fnd, MusSound chk x) →
          ∀ x ∈ (if cond then dcr chk verbose fuel li fnd else fnd),
            MusSound chk x := by
        intro cond hd li fnd hfnd x hx
        split at hx
        · exact ih li fnd hfnd x hx
        · exact hfnd x hx
      simp only [dcr] at hm
      split at hm
      · exact hf m hm
      split at hm
      · exact hf m hm
      next hsat1 =>
      have hlfalse : chk l.toFinset = false := by
        cases hb : chk l.toFinset
        · rfl
        · exact absurd hb hsat1
      split at hm
      next hmv =>
        rcases List.mem_append.mp hm with h | h
        · exact hf m h
        · rw [List.mem_singleton] at h
          subst h
          exact isMus_sound hempty hmv.1
      next hmv =>
      have hf0 : ∀ x ∈ (if isMus chk l = true then found ++ [l.toFinset]
          else found), MusSound chk x := by
        split
        next hmus =>
          intro x hx
          rcases List.mem_append.mp hx with h | h
          · exact hf x h
          · rw [List.mem_singleton] at h
            subst h
            exact isMus_sound hempty hmus
        · exact hf
      generalize hg : (if isMus chk l = true then found ++ [l.toFinset]
          else found : List (Finset ℕ)) = fnd at hm
      rw [hg] at hf0
      split at hm
      · -- both halves of the midpoint split SAT: _adjust_split_point
        split at hm
        · -- length ≤ 2: record the set if it is a MUS
          split at hm
          next hmus2 =>
            rcases List.mem_append.mp hm with h | h
            · exact hf0 m h
            · rw [List.mem_singleton] at h
              subst h
              exact isMus_sound hempty hmus2
          · exact hf0 m hm
        · -- try the ratio splits
          split at hm
          next mid hfind =>
            exact hstep _ _ _ _ (hstep _ _ _ _ hf0) m hm
          next hfind =>
            -- linear fallback
            split at hm
            next hnew =>
              rcases List.mem_append.mp hm with h | h
              · exact hf0 m h
              · rw [List.mem_singleton] at h
                subst h
                exact linearFallback_sound hmono hempty hlfalse
            · exact hf0 m hm
      · -- at least one half UNSAT: recurse, then process the remainder
        repeat' split at hm
        all_goals
          first
          | exact hf0 m hm
          | exact ih _ _ hf0 m hm
          | exact ih _ _ (ih _ _ hf0) m hm
          | exact ih _ _ (ih _ _ (ih _ _ hf0)) m hm

theorem mssFeedbackMining_sound {chk : OracleB} (hempty : chk ∅ = true)
    (seed : Finset ℕ) (knownMsses current : List (Finset ℕ)) :
    ∀ m ∈ mssFeedbackMining chk seed knownMsses current, MusSound chk m := by
  intro m hm
  simp only [mssFeedbackMining] at hm
  split at hm
  · simp at hm
  · split at hm
    · simp at hm
    · rcases List.mem_filter.mp hm with ⟨_, hcond⟩
      simp only [Bool.and_eq_true] at hcond
      have hmus := hcond.2
      have := isMus_sound hempty hmus
      rwa [Finset.sort_toFinset] at this

/-- Every MUS produced by `find_all_muses_divide_conquer` — through the
recursion, the linear fallback, or the MSS-feedback mining — is UNSAT and
loses unsatisfiability upon removal of any single element. -/
theorem findAllMuses_sound {chk : OracleB} (hmono : OracleMono chk)
    (hempty : chk ∅ = true) (verbose : Bool) (fuel : ℕ) (seed : List ℕ)
    (knownMsses : List (Finset ℕ)) :
    ∀ m ∈ findAllMuses chk verbose fuel seed knownMsses, MusSound chk m := by
  intro m hm
  unfold findAllMuses at hm
  rcases List.mem_append.mp hm with h | h
  · exact dcr_sound hmono hempty verbose fuel seed [] (by simp) m h
  · exact mssFeedbackMining_sound hempty _ _ _ m h

/-! ## The enumeration driver (`IntentMarcoPolo.enumerate`)

The driver state collects the map solver's blocking records (`up`,
`down`), the best MSS cardinality (`max_cardinality`), the solver's
cardinality threshold, the retained maximum-cardinality MSS list
(`cardinality_msses[max_cardinality]`), and the feedback registry
(`known_msses`).  A run is a sequence of loop iterations; the seed of
each iteration is spec-modelled as a *maximal* unexplored subset (the
spec's high-bias `next_seed` contract; the MiniSat backend is not part of
src/).  `block_small_seed`'s silent discarding of candidates below the
threshold appears as `discard` steps. -/

/-- The 1-based index universe of a run with `n` intents. -/
def idxUniv (n : ℕ) : Finset ℕ := Finset.Icc 1 n

/-- The ascending list of a seed's indices, as produced by `get_seed`
(`get_model_trues` scans variables `1..n` in order). -/
def finsetAsc (n : ℕ) (S : Finset ℕ) : List ℕ :=
  (idxList n).filter (fun i => decide (i ∈ S))

/-- Driver + map solver state. -/
structure DState where
  up : List (Finset ℕ)
  down : List (Finset ℕ)
  maxCard : ℕ
  threshold : ℕ
  retained : List (Finset ℕ)
  knownMsses : List (Finset ℕ)
deriving DecidableEq

/-- The state at the start of `enumerate`. -/
def initDState : DState := ⟨[], [], 0, 0, [], []⟩

/-- A subset is unexplored: no up-blocked set is contained in it and it is
contained in no down-blocked set (the models of the blocking clauses). -/
def unblocked (up down : List (Finset ℕ)) (S : Finset ℕ) : Bool :=
  up.all (fun B => decide (¬ B ⊆ S)) && down.all (fun D => decide (¬ S ⊆ D))

theorem unblocked_iff {up down : List (Finset ℕ)} {S : Finset ℕ} :
    unblocked up down S = true ↔
      (∀ B ∈ up, ¬ B ⊆ S) ∧ ∀ D ∈ down, ¬ S ⊆ D := by
  simp [unblocked, List.all_eq_true]

/-- Modelled from the spec: in high-bias mode `next_seed` delivers a
maximal unexplored subset of the index universe ("no superset is also
unblocked"); the MiniSat polarity machinery realising this is in the
`minisolvers` backend, which is not part of src/. -/
def maximalUnblocked (n : ℕ) (σ : DState) (S : Finset ℕ) : Prop :=
  S ⊆ idxUniv n ∧ unblocked σ.up σ.down S = true ∧
    ∀ T ∈ (idxUniv n).powerset, S ⊂ T → unblocked σ.up σ.down T = false

instance (n : ℕ) (σ : DState) (S : Finset ℕ) :
    Decidable (maximalUnblocked n σ S) := by
  unfold maximalUnblocked
  infer_instance

/-- State update of the SAT branch of `enumerate` (lines 105–142 of
src/intent_marco_polo.py): always block down; on a strictly larger
cardinality reset the retained MSS list to the seed and raise the
solver's threshold to the new maximum; on an equal cardinality append;
record the seed in `known_msses` whenever it is not pruned. -/
def applySat (σ : DState) (S : Finset ℕ) : DState :=
  { up := σ.up
    down := σ.down ++ [S]
    maxCard := max σ.maxCard S.card
    threshold := if σ.maxCard < S.card then S.card else σ.threshold
    retained := if σ.maxCard < S.card then [S]
      else if S.card = σ.maxCard then σ.retained ++ [S] else σ.retained
    knownMsses := if σ.maxCard ≤ S.card then σ.knownMsses ++ [S]
      else σ.knownMsses }

/-- The events yielded by the SAT branch: `("S", seed)` exactly when the
seed's cardinality is at least the current maximum. -/
def satEvents (σ : DState) (S : Finset ℕ) : List (String × Finset ℕ) :=
  if σ.maxCard ≤ S.card then [("S", S)] else []

/-- State update of the UNSAT branch: block up every found MUS, or the
seed itself when the shrinker returned none. -/
def applyUnsat (σ : DState) (S : Finset ℕ) (muses : List (Finset ℕ)) :
    DState :=
  { σ with up := σ.up ++ (if muses.isEmpty then [S] else muses) }

/-- State update of `block_small_seed`: the too-small candidate is blocked
up (its negated-literal clause excludes it and all supersets). -/
def applyDiscard (σ : DState) (S : Finset ℕ) : DState :=
  { σ with up := σ.up ++ [S] }

/-- A complete or partial run of `enumerate` from `σ` to `σ'` yielding
`evs`.  `sat`/`unsat` steps deliver a maximal unexplored seed respecting
the positive cardinality threshold; `discard` steps silently block a
maximal unexplored candidate smaller than the positive threshold
(`next_seed_with_cardinality`).  The UNSAT branch runs
`find_all_muses_divide_conquer` (at some recursion budget) on the
ascending seed list with the current feedback registry. -/
inductive Run (n : ℕ) (verbose : Bool) (chk : OracleB) :
    DState → List (String × Finset ℕ) → DState → Prop where
  | nil (σ : DState) : Run n verbose chk σ [] σ
  | sat (σ σ' : DState) (S : Finset ℕ) (evs : List (String × Finset ℕ))
      (hmax : maximalUnblocked n σ S)
      (hthr : 0 < σ.threshold → σ.threshold ≤ S.card)
      (hchk : chk S = true)
      (hrest : Run n verbose chk (applySat σ S) evs σ') :
      Run n verbose chk σ (satEvents σ S ++ evs) σ'
  | unsat (σ σ' : DState) (S : Finset ℕ) (muses : List (Finset ℕ)) (fuel : ℕ)
      (evs : List (String × Finset ℕ))
      (hmax : maximalUnblocked n σ S)
      (hthr : 0 < σ.threshold → σ.threshold ≤ S.card)
      (hchk : chk S = false)
      (hmus : muses = findAllMuses chk verbose fuel (finsetAsc n S) σ.knownMsses)
      (hrest : Run n verbose chk (applyUnsat σ S muses) evs σ') :
      Run n verbose chk σ (muses.map (fun m => ("U", m)) ++ evs) σ'
  | discard (σ σ' : DState) (S : Finset ℕ) (evs : List (String × Finset ℕ))
      (hmax : maximalUnblocked n σ S)
      (hthr : 0 < σ.threshold)
      (hsmall : S.card < σ.threshold)
      (hrest : Run n verbose chk (applyDiscard σ S) evs σ') :
      Run n verbose chk σ evs σ'

/-- The run has explored everything: no subset of the universe is
unexplored, so `next_seed` returns `None` and `enumerate` stops. -/
def completedRun (n : ℕ) (σ : DState) : Prop :=
  ∀ S ∈ (idxUniv n).powerset, unblocked σ.up σ.down S = false

instance (n : ℕ) (σ : DState) : Decidable (completedRun n σ) := by
  unfold completedRun
  infer_instance

/-! ### The driver invariant -/

/-- Invariant of every reachable state: (1) every SAT subset strictly
larger than the current maximum cardinality is still unexplored, (2) the
threshold never exceeds the maximum cardinality, (3) a positive maximum
cardinality is achieved by some SAT subset, (4) every retained MSS has
exactly the maximum cardinality. -/
def DInv (n : ℕ) (chk : OracleB) (σ : DState) : Prop :=
  (∀ S : Finset ℕ, S ⊆ idxUniv n → chk S = true → σ.maxCard < S.card →
      unblocked σ.up σ.down S = true) ∧
  σ.threshold ≤ σ.maxCard ∧
  (σ.maxCard = 0 ∨
    ∃ S : Finset ℕ, S ⊆ idxUniv n ∧ chk S = true ∧ S.card = σ.maxCard) ∧
  (∀ m ∈ σ.retained, m.card = σ.maxCard)

theorem DInv_init (n : ℕ) (chk : OracleB) : DInv n chk initDState := by
  refine ⟨?_, le_refl 0, Or.inl rfl, ?_⟩
  · intro S _ _ _
    simp [initDState, unblocked]
  · intro m hm
    simp [initDState] at hm

theorem DInv_applySat {n : ℕ} {chk : OracleB} {σ : DState} {S : Finset ℕ}
    (hinv : DInv n chk σ) (hchk : chk S = true) (hsub : S ⊆ idxUniv n) :
    DInv n chk (applySat σ S) := by
  obtain ⟨h1, h2, h3, h4⟩ := hinv
  refine ⟨?_, ?_, ?_, ?_⟩
  · intro T hT hchkT hcard
    simp only [applySat] at hcard ⊢
    have hcard1 : σ.maxCard < T.card := lt_of_le_of_lt (le_max_left _ _) hcard
    have hcard2 : S.card < T.card := lt_of_le_of_lt (le_max_right _ _) hcard
    have hold := h1 T hT hchkT hcard1
    rw [unblocked_iff] at hold ⊢
    refine ⟨hold.1, ?_⟩
    intro D hD
    rcases List.mem_append.mp hD with h | h
    · exact hold.2 D h
    · rw [List.mem_singleton] at h
      subst h
      intro hTS
      exact absurd (Finset.card_le_card hTS) (by omega)
  · simp only [applySat]
    split
    next h => exact le_max_right _ _
    next h => exact le_trans h2 (le_max_left _ _)
  · simp only [applySat]
    rcases Nat.lt_or_ge σ.maxCard S.card with h | h
    · right
      exact ⟨S, hsub, hchk, by omega⟩
    · have hmax : max σ.maxCard S.card = σ.maxCard := by omega
      rw [hmax]
      exact h3
  · intro m hm
    simp only [applySat] at hm ⊢
    rcases Nat.lt_or_ge σ.maxCard S.card with h | h
    · rw [if_pos h] at hm
      rw [List.mem_singleton] at hm
      subst hm
      omega
    · have hmax : max σ.maxCard S.card = σ.maxCard := by omega
      rw [if_neg (by omega)] at hm
      rw [hmax]
      split at hm
      next he =>
        rcases List.mem_append.mp hm with hh | hh
        · exact h4 m hh
        · rw [List.mem_singleton] at hh
          subst hh
          omega
      · exact h4 m hm

theorem DInv_applyUnsat {n : ℕ} {chk : OracleB} {σ : DState} {S : Finset ℕ}
    {muses : List (Finset ℕ)} (hmono : OracleMono chk) (hinv : DInv n chk σ)
    (hSfalse : chk S = false) (hmusfalse : ∀ m ∈ muses, chk m = false) :
    DInv n chk (applyUnsat σ S muses) := by
  obtain ⟨h1, h2, h3, h4⟩ := hinv
  refine ⟨?_, h2, h3, h4⟩
  intro T hT hchkT hcard
  have hold := h1 T hT hchkT hcard
  simp only [applyUnsat]
  rw [unblocked_iff] at hold ⊢
  refine ⟨?_, hold.2⟩
  intro B hB
  rcases List.mem_append.mp hB with h | h
  · exact hold.1 B h
  · intro hBT
    have hBfalse : chk B = false := by
      split at h
      · rw [List.mem_singleton] at h
        subst h
        exact hSfalse
      · exact hmusfalse B h
    have := hmono B T hBT hchkT
    rw [hBfalse] at this
    exact Bool.false_ne_true this

theorem DInv_applyDiscard {n : ℕ} {chk : OracleB} {σ : DState} {S : Finset ℕ}
    (hinv : DInv n chk σ) (hmax : maximalUnblocked n σ S)
    (_hthr : 0 < σ.threshold) (hsmall : S.card < σ.threshold) :
    DInv n chk (applyDiscard σ S) := by
  obtain ⟨h1, h2, h3, h4⟩ := hinv
  refine ⟨?_, h2, h3, h4⟩
  intro T hT hchkT hcard
  have hcard2 : σ.maxCard < T.card := hcard
  have hold := h1 T hT hchkT hcard2
  have holdp := unblocked_iff.mp hold
  simp only [applyDiscard]
  rw [unblocked_iff]
  refine ⟨?_, holdp.2⟩
  intro B hB
  rcases List.mem_append.mp hB with h | h
  · exact holdp.1 B h
  · rw [List.mem_singleton] at h
    subst h
    intro hST
    rcases eq_or_ne B T with rfl | hne
    · omega
    · have hss : B ⊂ T := Finset.ssubset_iff_subset_ne.mpr ⟨hST, hne⟩
      have hfb := hmax.2.2 T (Finset.mem_powerset.mpr hT) hss
      rw [hold] at hfb
      exact absurd hfb (by decide)

/-- The invariant holds at the end of every run from an invariant state. -/
theorem DInv_run {n : ℕ} {verbose : Bool} {chk : OracleB}
    {σ σf : DState} {evs : List (String × Finset ℕ)}
    (hmono : OracleMono chk) (hempty : chk ∅ = true)
    (hrun : Run n verbose chk σ evs σf) (hinv : DInv n chk σ) :
    DInv n chk σf := by
  induction hrun with
  | nil => exact hinv
  | sat σ σ' S evs hmax hthr hchk hrest ih =>
      exact ih (DInv_applySat hinv hchk hmax.1)
  | unsat σ σ' S muses fuel evs hmax hthr hchk hmus hrest ih =>
      refine ih (DInv_applyUnsat hmono hinv hchk ?_)
      intro m hm
      rw [hmus] at hm
      exact (findAllMuses_sound hmono hempty verbose fuel _ _ m hm).1
  | discard σ σ' S evs hmax hthr hsmall hrest ih =>
      exact ih (DInv_applyDiscard hinv hmax hthr hsmall)

/-! ### Soundness of yielded MSS and MUS events -/

/-- Claim C2: in every run (with the spec-modelled maximal seed
delivery), every set `s` yielded as an MSS event `("S", s)` is SAT, and
adding any missing intent index makes the oracle UNSAT — the yielded set
is a maximal satisfiable subset.  `chk` is any monotone oracle with
`chk ∅ = true`; `oracleSat_mono` shows the program's Z3-backed `check`
satisfies both hypotheses. -/
theorem C2_mss_soundness {n : ℕ} {verbose : Bool} {chk : OracleB}
    {σf : DState} {evs : List (String × Finset ℕ)}
    (hmono : OracleMono chk) (hempty : chk ∅ = true)
    (hrun : Run n verbose chk initDState evs σf)
    (s : Finset ℕ) (hev : ("S", s) ∈ evs) :
    chk s = true ∧ ∀ i ∈ idxUniv n, i ∉ s → chk (insert i s) = false := by
  suffices h : ∀ (σ : DState) (evs : List (String × Finset ℕ)) (σf : DState),
      Run n verbose chk σ evs σf → DInv n chk σ →
      ∀ s, ("S", s) ∈ evs →
        chk s = true ∧ ∀ i ∈ idxUniv n, i ∉ s → chk (insert i s) = false by
    exact h _ _ _ hrun (DInv_init n chk) s hev
  intro σ evs σf hrun
  induction hrun with
  | nil =>
      intro _ s hs
      simp at hs
  | sat σ σ' S evs hmax hthr hchk hrest ih =>
      intro hinv s hs
      rcases List.mem_append.mp hs with h | h
      · unfold satEvents at h
        split at h
        next hcard =>
          rw [List.mem_singleton, Prod.mk.injEq] at h
          obtain ⟨-, rfl⟩ := h
          refine ⟨hchk, ?_⟩
          intro i hiu hinotin
          cases hb : chk (insert i s)
          · rfl
          · exfalso
            have hsub2 : insert i s ⊆ idxUniv n :=
              Finset.insert_subset hiu hmax.1
            have hcard2 : σ.maxCard < (insert i s).card := by
              rw [Finset.card_insert_of_not_mem hinotin]
              omega
            have hub := hinv.1 _ hsub2 hb hcard2
            have hfb := hmax.2.2 (insert i s) (Finset.mem_powerset.mpr hsub2)
              (Finset.ssubset_insert hinotin)
            rw [hub] at hfb
            exact absurd hfb (by decide)
        · simp at h
      · exact ih (DInv_applySat hinv hchk hmax.1) s h
  | unsat σ σ' S muses fuel evs hmax hthr hchk hmus hrest ih =>
      intro hinv s hs
      rcases List.mem_append.mp hs with h | h
      · rcases List.mem_map.mp h with ⟨m, hm, heq⟩
        rw [Prod.mk.injEq] at heq
        exact absurd heq.1.symm (by decide)
      · refine ih (DInv_applyUnsat hmono hinv hchk ?_) s h
        intro m hm
        rw [hmus] at hm
        exact (findAllMuses_sound hmono hempty verbose fuel _ _ m hm).1
  | discard σ σ' S evs hmax hthr hsmall hrest ih =>
      intro hinv s hs
      exact ih (DInv_applyDiscard hinv hmax hthr hsmall) s hs

/-- Claim C3 (amended): over a completed run, every *retained* MSS (the
final `cardinality_msses[max_cardinality]` registry) has cardinality
equal to the final `max_cardinality`, and that value equals the maximum
cardinality over all satisfiable subsets of the index universe.  (The
yielded event stream may additionally contain earlier, strictly smaller
MSS events, which the driver discards from the registry but has already
yielded — see the counterexample.) -/
theorem C3_retained_mss_cardinality_optimal {n : ℕ} {verbose : Bool}
    {chk : OracleB} {σf : DState} {evs : List (String × Finset ℕ)}
    (hmono : OracleMono chk) (hempty : chk ∅ = true)
    (hrun : Run n verbose chk initDState evs σf)
    (hcomp : completedRun n σf) :
    (∀ m ∈ σf.retained, m.card = σf.maxCard) ∧
    σf.maxCard =
      ((idxUniv n).powerset.filter (fun S => chk S = true)).sup Finset.card := by
  have hinv := DInv_run hmono hempty hrun (DInv_init n chk)
  obtain ⟨h1, h2, h3, h4⟩ := hinv
  refine ⟨h4, le_antisymm ?_ ?_⟩
  · rcases h3 with h0 | ⟨S, hsub, hchk, hcard⟩
    · omega
    · rw [← hcard]
      exact Finset.le_sup (Finset.mem_filter.mpr
        ⟨Finset.mem_powerset.mpr hsub, hchk⟩)
  · refine Finset.sup_le ?_
    intro S hS
    rcases Finset.mem_filter.mp hS with ⟨hSp, hSchk⟩
    by_contra hlt
    push_neg at hlt
    have hub := h1 S (Finset.mem_powerset.mp hSp) hSchk hlt
    have := hcomp S hSp
    rw [hub] at this
    exact absurd this (by decide)

/-- Claim C4: in every run, every set `m` yielded as a MUS event
`("U", m)` — whether found by the recursive shrinker, the linear
fallback, or the MSS-feedback hitting-set mining — is UNSAT, and removing
any single element of it yields a SAT set. -/
theorem C4_mus_soundness {n : ℕ} {verbose : Bool} {chk : OracleB}
    {σ σf : DState} {evs : List (String × Finset ℕ)}
    (hmono : OracleMono chk) (hempty : chk ∅ = true)
    (hrun : Run n verbose chk σ evs σf)
    (m : Finset ℕ) (hev : ("U", m) ∈ evs) :
    chk m = false ∧ ∀ c ∈ m, chk (m.erase c) = true := by
  induction hrun with
  | nil => simp at hev
  | sat σ σ' S evs hmax hthr hchk hrest ih =>
      rcases List.mem_append.mp hev with h | h
      · unfold satEvents at h
        split at h
        · rw [List.mem_singleton, Prod.mk.injEq] at h
          exact absurd h.1.symm (by decide)
        · simp at h
      · exact ih h
  | unsat σ σ' S muses fuel evs hmax hthr hchk hmus hrest ih =>
      rcases List.mem_append.mp hev with h | h
      · rcases List.mem_map.mp h with ⟨m', hm', heq⟩
        rw [Prod.mk.injEq] at heq
        obtain ⟨-, rfl⟩ := heq
        rw [hmus] at hm'
        exact findAllMuses_sound hmono hempty verbose fuel _ _ m' hm'
      · exact ih h
  | discard σ σ' S evs hmax hthr hsmall hrest ih => exact ih hev

/-! ## Concrete runs on the triangle topology

Scenario for claims C2/C3/C4: three `path_preference` intents over the
triangle with chord.  Intent 1 prefers the chord `A→C`, intents 2 and 3
prefer the detour `A→B→C`, so `{1,2}` and `{1,3}` are the only minimal
conflicts. -/

/-- `path_preference(A→C, primary=[A,C], secondary=[A,B,C])`. -/
def iPrefDirect : Intent :=
  ⟨"OSPF", "path_preference", "A", "C", [["A", "C"], ["A", "B", "C"]]⟩

/-- `path_preference(A→C, primary=[A,B,C], secondary=[A,C])`. -/
def iPrefDetour : Intent :=
  ⟨"OSPF", "path_preference", "A", "C", [["A", "B", "C"], ["A", "C"]]⟩

def intentsC3 : List Intent := [iPrefDirect, iPrefDetour, iPrefDetour]

/-- Weights making the detour strictly cheaper than the chord. -/
def wDetour : Weights := fun k => if k = "A_C" then 3 else 1

/-- The oracle verdicts of `check` on subsets of `{1,2,3}` for
`intentsC3`: UNSAT exactly on the supersets of `{1,2}` or `{1,3}`. -/
def chkC3 : OracleB := fun s =>
  !(decide (({1, 2} : Finset ℕ) ⊆ s) || decide (({1, 3} : Finset ℕ) ⊆ s))

theorem prefPair_unsat : ¬ DetectionSat triLinks [iPrefDirect, iPrefDetour] := by
  rintro ⟨w, hw⟩
  have hlist : detectConstraints triLinks [iPrefDirect, iPrefDetour] =
      [Constr.pos "A_B", Constr.pos "B_A", Constr.pos "B_C", Constr.pos "C_B",
       Constr.pos "A_C", Constr.pos "C_A",
       Constr.lt ["A_C"] ["A_B", "B_C"], Constr.lt ["A_B", "B_C"] ["A_C"]] := by
    rfl
  rw [hlist] at hw
  simp only [List.all_cons, List.all_nil, Bool.and_eq_true, evalConstr,
    decide_eq_true_eq, pathCost, List.map_cons, List.map_nil, List.sum_cons,
    List.sum_nil] at hw
  omega

theorem prefTriple_unsat :
    ¬ DetectionSat triLinks [iPrefDirect, iPrefDetour, iPrefDetour] := by
  rintro ⟨w, hw⟩
  have hlist : detectConstraints triLinks [iPrefDirect, iPrefDetour, iPrefDetour] =
      [Constr.pos "A_B", Constr.pos "B_A", Constr.pos "B_C", Constr.pos "C_B",
       Constr.pos "A_C", Constr.pos "C_A",
       Constr.lt ["A_C"] ["A_B", "B_C"], Constr.lt ["A_B", "B_C"] ["A_C"],
       Constr.lt ["A_B", "B_C"] ["A_C"]] := by
    rfl
  rw [hlist] at hw
  simp only [List.all_cons, List.all_nil, Bool.and_eq_true, evalConstr,
    decide_eq_true_eq, pathCost, List.map_cons, List.map_nil, List.sum_cons,
    List.sum_nil] at hw
  omega

/-- `chkC3` computes exactly the Z3 oracle's verdicts on every subset of
the index universe of `intentsC3`. -/
theorem chkC3_matches :
    ∀ s ∈ (idxUniv 3).powerset,
      (chkC3 s = true ↔ oracleSat triLinks intentsC3 s) := by
  intro s hs
  fin_cases hs <;>
    first
    | (refine iff_of_true (by decide) ?_
       rw [oracleSat, if_pos (by decide)]
       trivial)
    | (refine iff_of_true (by decide) ?_
       rw [oracleSat, if_neg (by decide)]
       first
       | exact ⟨fun _ => 1, by decide⟩
       | exact ⟨wDetour, by decide⟩)
    | (refine iff_of_false (by decide) ?_
       rw [oracleSat, if_neg (by decide)]
       first
       | exact prefPair_unsat
       | exact prefTriple_unsat)

theorem chkC3_mono : OracleMono chkC3 := by
  intro s t hst ht
  have h12 : ¬ ({1, 2} : Finset ℕ) ⊆ t := by
    intro hc
    simp [chkC3, hc] at ht
  have h13 : ¬ ({1, 3} : Finset ℕ) ⊆ t := by
    intro hc
    simp [chkC3, hc] at ht
  have hs12 : ¬ ({1, 2} : Finset ℕ) ⊆ s := fun hc => h12 (hc.trans hst)
  have hs13 : ¬ ({1, 3} : Finset ℕ) ⊆ s := fun hc => h13 (hc.trans hst)
  simp [chkC3, hs12, hs13]

/-- Intermediate and final driver states of the concrete run. -/
def sC3a : DState := ⟨[{1, 2}], [], 0, 0, [], []⟩
def sC3b : DState := ⟨[{1, 2}, {1, 3}], [], 0, 0, [], []⟩
def sC3c : DState := ⟨[{1, 2}, {1, 3}], [{1}], 1, 1, [{1}], [{1}]⟩
def sigmaC3 : DState :=
  ⟨[{1, 2}, {1, 3}], [{1}, {2, 3}], 2, 2, [{2, 3}], [{1}, {2, 3}]⟩

/-- The event stream of the concrete run: the full seed is UNSAT and
shrinks to the MUS `{1,2}`, the next seed `{1,3}` is itself a MUS, then
the maximal unexplored seeds `{1}` (cardinality 1) and `{2,3}`
(cardinality 2) are both yielded as MSS events. -/
def evsC3 : List (String × Finset ℕ) :=
  [("U", {1, 2}), ("U", {1, 3}), ("S", {1}), ("S", {2, 3})]

/-- The concrete run is a legal complete run of the driver. -/
theorem runC3 : Run 3 true chkC3 initDState evsC3 sigmaC3 := by
  have h4 : Run 3 true chkC3 sC3c [("S", {2, 3})] sigmaC3 := by
    have hev : satEvents sC3c {2, 3} ++ ([] : List (String × Finset ℕ)) =
        [("S", ({2, 3} : Finset ℕ))] := by decide
    rw [← hev]
    refine Run.sat _ _ _ _ (by decide) (by decide) (by decide) ?_
    have happ : applySat sC3c {2, 3} = sigmaC3 := by decide
    rw [happ]
    exact Run.nil _
  have h3 : Run 3 true chkC3 sC3b [("S", {1}), ("S", {2, 3})] sigmaC3 := by
    have hev : satEvents sC3b {1} ++ [("S", ({2, 3} : Finset ℕ))] =
        [("S", ({1} : Finset ℕ)), ("S", {2, 3})] := by decide
    rw [← hev]
    refine Run.sat _ _ _ _ (by decide) (by decide) (by decide) ?_
    have happ : applySat sC3b {1} = sC3c := by decide
    rw [happ]
    exact h4
  have h2 : Run 3 true chkC3 sC3a
      [("U", {1, 3}), ("S", {1}), ("S", {2, 3})] sigmaC3 := by
    have hev : ([({1, 3} : Finset ℕ)].map (fun m => (("U" : String), m))) ++
        [("S", ({1} : Finset ℕ)), ("S", {2, 3})] =
        [("U", ({1, 3} : Finset ℕ)), ("S", {1}), ("S", {2, 3})] := by decide
    rw [← hev]
    refine Run.unsat _ _ ({1, 3} : Finset ℕ) _ 10 _ (by decide) (by decide)
      (by decide) (by decide) ?_
    have happ : applyUnsat sC3a {1, 3} [{1, 3}] = sC3b := by decide
    rw [happ]
    exact h3
  have hev : ([({1, 2} : Finset ℕ)].map (fun m => (("U" : String), m))) ++
      [("U", ({1, 3} : Finset ℕ)), ("S", {1}), ("S", {2, 3})] = evsC3 := by decide
  rw [← hev]
  refine Run.unsat _ _ ({1, 2, 3} : Finset ℕ) _ 10 _ (by decide) (by decide)
    (by decide) (by decide) ?_
  have happ : applyUnsat initDState {1, 2, 3} [{1, 2}] = sC3a := by decide
  rw [happ]
  exact h2

/-- Claim C3 counterexample: the claim says all MSSes yielded by the
enumerator have the same cardinality.  In the legal complete run `runC3`
of the driver on `intentsC3` (whose oracle verdicts are exactly `chkC3`),
the yielded event stream contains both `("S", {1})` and `("S", {2,3})` —
MSS events of cardinalities 1 and 2.  Only the *retained* registry is
trimmed to the maximum cardinality; the yield stream is not. -/
theorem C3_counterexample_yielded_sizes_differ :
    Run 3 true chkC3 initDState evsC3 sigmaC3 ∧
    completedRun 3 sigmaC3 ∧
    (∀ s ∈ (idxUniv 3).powerset,
      (chkC3 s = true ↔ oracleSat triLinks intentsC3 s)) ∧
    ("S", ({1} : Finset ℕ)) ∈ evsC3 ∧ ("S", ({2, 3} : Finset ℕ)) ∈ evsC3 ∧
    ({1} : Finset ℕ).card ≠ ({2, 3} : Finset ℕ).card :=
  ⟨runC3, by decide, chkC3_matches, by decide, by decide, by decide⟩

theorem C2_witness :
    (OracleMono chkC3 ∧ chkC3 ∅ = true) ∧
    (chkC3 {2, 3} = true ∧
      ∀ i ∈ idxUniv 3, i ∉ ({2, 3} : Finset ℕ) →
        chkC3 (insert i {2, 3}) = false) :=
  ⟨⟨chkC3_mono, by decide⟩,
    C2_mss_soundness chkC3_mono (by decide) runC3 {2, 3} (by decide)⟩

theorem C3_witness :
    completedRun 3 sigmaC3 ∧
    ((∀ m ∈ sigmaC3.retained, m.card = sigmaC3.maxCard) ∧
      sigmaC3.maxCard =
        ((idxUniv 3).powerset.filter (fun S => chkC3 S = true)).sup
          Finset.card) :=
  ⟨by decide,
    C3_retained_mss_cardinality_optimal chkC3_mono (by decide) runC3 (by decide)⟩

theorem C4_witness :
    chkC3 {1, 2} = false ∧
      ∀ c ∈ ({1, 2} : Finset ℕ), chkC3 (({1, 2} : Finset ℕ).erase c) = true :=
  C4_mus_soundness chkC3_mono (by decide) runC3 {1, 2} (by decide)

/-! ## The single-UNSAT-intent run (claim C6)

A single degenerate `path_preference` intent whose primary and secondary
paths coincide is UNSAT (`cost(P) < cost(P)` is unsatisfiable).  The
shrinker ignores sets of size ≤ 1 (`_divide_conquer_recursive` returns
immediately, `_is_mus` rejects singletons), so the driver never produces
the MUS `{1}`; instead it blocks the seed up and then yields the empty
set as an MSS event. -/

/-- `path_preference(A→C, primary=[A,C], secondary=[A,C])` — UNSAT on its
own. -/
def iPrefSelf : Intent :=
  ⟨"OSPF", "path_preference", "A", "C", [["A", "C"], ["A", "C"]]⟩

/-- The oracle verdicts for the single intent `iPrefSelf`: only the empty
set is SAT. -/
def chk1 : OracleB := fun s => decide (s = ∅)

theorem iPrefSelf_unsat : ¬ DetectionSat triLinks [iPrefSelf] := by
  rintro ⟨w, hw⟩
  have hlist : detectConstraints triLinks [iPrefSelf] =
      [Constr.pos "A_B", Constr.pos "B_A", Constr.pos "B_C", Constr.pos "C_B",
       Constr.pos "A_C", Constr.pos "C_A",
       Constr.lt ["A_C"] ["A_C"]] := by
    rfl
  rw [hlist] at hw
  simp only [List.all_cons, List.all_nil, Bool.and_eq_true, evalConstr,
    decide_eq_true_eq, pathCost, List.map_cons, List.map_nil, List.sum_cons,
    List.sum_nil] at hw
  omega

/-- `chk1` computes exactly the Z3 oracle's verdicts for `[iPrefSelf]`. -/
theorem chk1_matches :
    ∀ s ∈ (idxUniv 1).powerset,
      (chk1 s = true ↔ oracleSat triLinks [iPrefSelf] s) := by
  intro s hs
  fin_cases hs
  · refine iff_of_true (by decide) ?_
    rw [oracleSat, if_pos (by decide)]
    trivial
  · refine iff_of_false (by decide) ?_
    rw [oracleSat, if_neg (by decide)]
    exact iPrefSelf_unsat

def sC6a : DState := ⟨[{1}], [], 0, 0, [], []⟩
def sigmaC6 : DState := ⟨[{1}], [∅], 0, 0, [∅], [∅]⟩

/-- The complete run on the single UNSAT intent: the seed `{1}` is UNSAT,
the shrinker finds no MUS (`len(intent_set) <= 1` returns immediately),
the seed is blocked up, and the only remaining unexplored subset — the
empty set — is then yielded as the MSS event `("S", ∅)`. -/
theorem runC6 : Run 1 true chk1 initDState [("S", ∅)] sigmaC6 := by
  have h2 : Run 1 true chk1 sC6a [("S", ∅)] sigmaC6 := by
    have hev : satEvents sC6a ∅ ++ ([] : List (String × Finset ℕ)) =
        [("S", (∅ : Finset ℕ))] := by decide
    rw [← hev]
    refine Run.sat _ _ _ _ (by decide) (by decide) (by decide) ?_
    have happ : applySat sC6a ∅ = sigmaC6 := by decide
    rw [happ]
    exact Run.nil _
  have hev : (([] : List (Finset ℕ)).map (fun m => (("U" : String), m))) ++
      [("S", (∅ : Finset ℕ))] = [("S", (∅ : Finset ℕ))] := by decide
  rw [← hev]
  refine Run.unsat _ _ ({1} : Finset ℕ) [] 10 _ (by decide) (by decide)
    (by decide) (by decide) ?_
  have happ : applyUnsat initDState {1} [] = sC6a := by decide
  rw [happ]
  exact h2

/-- Claim C6: the spec says a run on a single UNSAT intent yields exactly
one MUS `{1}`.  The code cannot produce singleton MUSes: on the intent
`path_preference(A→C, [A,C], [A,C])` (UNSAT — the oracle's verdicts are
exactly `chk1`), the unique complete run yields no `"U"` event at all and
instead yields the empty set as an MSS event. -/
theorem C6_singleton_unsat_run_yields_no_mus :
    (¬ oracleSat triLinks [iPrefSelf] {1}) ∧
    Run 1 true chk1 initDState [("S", ∅)] sigmaC6 ∧
    completedRun 1 sigmaC6 ∧
    (∀ e ∈ [(("S" : String), (∅ : Finset ℕ))], e.1 ≠ "U") ∧
    ("U", ({1} : Finset ℕ)) ∉ [(("S" : String), (∅ : Finset ℕ))] := by
  refine ⟨?_, runC6, by decide, by decide, by decide⟩
  rw [oracleSat, if_neg (by decide)]
  exact iPrefSelf_unsat

end MarcoCstree
